import Mathlib

/-!
Verification development for the cgc-core governance pipeline.

This file gives a shallow embedding in Lean 4 of the parts of the
repository `src/cgc_core/` that the verified properties talk about:

* `pan_module.py`  — `PerceptionAnalysisNode` (data-quality scoring),
* `ecm_module.py`  — `EthicalCalibrationModule` (framework scores, concerns),
* `pfm_module.py`  — `PredictiveFeedbackMechanism._assess_risks`,
* `cgc_loop.py`    — `GovernanceOrchestrator` (`_synthesize_decision` and
  `orchestrate_decision`),
* `tco_module.py`  — `TraceabilityOversight` (the hash-linked audit ledger),
* `core_engine.py` — the in-memory `TraceabilityOversight.add_entry` stub.

Modelling conventions:

* Python floats are embedded as exact rationals `ℚ`; `round(x, d)` is
  embedded as decimal rounding half-up (`pyRound`).  None of the verified
  statements sits on a rounding tie, so the half-even/half-up difference
  is immaterial for every input used in a theorem below.
* Python dictionaries/values are embedded as the inductive `PyVal`; the
  `str()` rendering used by the source for substring tests is embedded
  by `pyRepr`/`pyStr` (standard repr of flat values; string escaping is
  not reproduced, and no input used below needs it).
* SHA-256 (truncated hex digests) is embedded as a perfect hash: hash
  values form the inductive `HashVal`, and distinct hashed contents give
  distinct hash values by constructor injectivity.  This is the usual
  collision-free idealisation of a cryptographic hash.
* The repository-wide call `(datetime.now() - start_time).total_microseconds()`
  invokes a method that does not exist on a Python `timedelta`
  (`timedelta` only has `total_seconds`), so it raises `AttributeError`.
  Functions containing that call are embedded as `Except PyError _`
  computations that perform their state effects up to the failing line
  and then return the error.
-/

/-- Error raised by the embedded Python code.  The only error the
modelled modules can raise is the `AttributeError` produced by calling
the nonexistent `timedelta.total_microseconds`. -/
inductive PyError : Type where
  | attributeError (msg : String)
  deriving Repr, DecidableEq

/-- The `AttributeError` raised by `(datetime.now() - start_time).total_microseconds()`. -/
def tdError : PyError :=
  PyError.attributeError "timedelta object has no attribute total_microseconds"

/-- Embedded Python values: the JSON-able values the pipeline passes
around (strings, ints, bools, None, lists, dicts with string keys). -/
inductive PyVal : Type where
  | str  (s : String)
  | int  (n : Int)
  | bool (b : Bool)
  | none
  | list (xs : List PyVal)
  | dict (xs : List (String × PyVal))

mutual

/-- Python `repr` of a value (also `str` for non-string values):
dicts render as `\x7b'k': v, ...\x7d`, lists as `[v, ...]`, strings quoted. -/
def pyRepr : PyVal → String
  | PyVal.str s => "\x27" ++ s ++ "\x27"
  | PyVal.int n => toString n
  | PyVal.bool b => if b then "True" else "False"
  | PyVal.none => "None"
  | PyVal.list xs => "[" ++ pyReprList xs ++ "]"
  | PyVal.dict xs => "\x7b" ++ pyReprDict xs ++ "\x7d"

/-- Comma-separated reprs of the elements of a list value. -/
def pyReprList : List PyVal → String
  | [] => ""
  | [x] => pyRepr x
  | x :: y :: xs => pyRepr x ++ ", " ++ pyReprList (y :: xs)

/-- Comma-separated `'key': value` reprs of the items of a dict value. -/
def pyReprDict : List (String × PyVal) → String
  | [] => ""
  | [(k, v)] => "\x27" ++ k ++ "\x27: " ++ pyRepr v
  | (k, v) :: y :: xs =>
      "\x27" ++ k ++ "\x27: " ++ pyRepr v ++ ", " ++ pyReprDict (y :: xs)

end

/-- Python `str` of a value: identical to `repr` except on strings,
which render without quotes. -/
def pyStr : PyVal → String
  | PyVal.str s => s
  | v => pyRepr v

/-- Lower-case a string, character by character (Python `str.lower`
restricted to ASCII, which covers every signal word the source tests). -/
def strLower (s : String) : String :=
  String.mk (s.data.map Char.toLower)

/-- Does `needle` occur as a contiguous sublist of `hay`? -/
def charsInfix (needle : List Char) : List Char → Bool
  | [] => needle.isEmpty
  | c :: rest => needle.isPrefixOf (c :: rest) || charsInfix needle rest

/-- Python substring test `needle in hay`. -/
def pyContains (hay needle : String) : Bool :=
  charsInfix needle.data hay.data

/-- Python truthiness test `not v` (we record falsiness): empty string,
zero, `False`, `None`, empty list and empty dict are falsy. -/
def pyFalsy : PyVal → Bool
  | PyVal.str s => s.isEmpty
  | PyVal.int n => n == 0
  | PyVal.bool b => !b
  | PyVal.none => true
  | PyVal.list xs => xs.isEmpty
  | PyVal.dict xs => xs.isEmpty

/-- Python `round(x, d)` embedded over `ℚ` as decimal rounding half-up. -/
def pyRound (x : ℚ) (d : ℕ) : ℚ :=
  (⌊x * 10 ^ d + 1 / 2⌋ : ℚ) / 10 ^ d

namespace Pan

/-- Source: `pan_module.py`, `PerceptionAnalysisNode._assess_data_quality`
(lines 77-99).  Starts from `quality = 1.0`; halves it when the payload
is falsy (empty); multiplies by `0.8` when the payload is not a dict;
for a nonempty dict multiplies by `1 - (empty_fields / total_fields) * 0.3`;
returns `round(quality, 3)`. -/
def assess_data_quality (data : PyVal) : ℚ :=
  let quality : ℚ := 1
  let quality := if pyFalsy data then quality * 0.5 else quality
  let quality :=
    match data with
    | PyVal.dict _ => quality * 1
    | _ => quality * 0.8
  let quality :=
    match data with
    | PyVal.dict xs =>
        let total_fields := xs.length
        let empty_fields := (xs.filter (fun kv => pyFalsy kv.2)).length
        if 0 < total_fields then
          quality * (1 - ((empty_fields : ℚ) / (total_fields : ℚ)) * 0.3)
        else quality
    | _ => quality
  pyRound quality 3

/-- Result record assembled by `PerceptionAnalysisNode.analyze` (never
actually returned, see `analyze`). -/
structure PanResult : Type where
  data_quality_score : ℚ
  fingerprint : String
  confidence : ℚ
  deriving Repr, DecidableEq

/-- Source: `pan_module.py`, `PerceptionAnalysisNode.analyze` (lines
30-75).  Computes the quality score, context, semantic analysis and
entities (lines 42-54), and then at line 57 evaluates
`(datetime.now() - start_time).total_microseconds()`, which raises
`AttributeError` before `total_processed` is incremented and before any
result is returned. -/
def analyze (input_data : PyVal) (_context : Option PyVal) : Except PyError PanResult :=
  let _quality_score := assess_data_quality input_data
  Except.error tdError

end Pan

namespace Ecm

/-- Source: `ecm_module.py` lines 28-35, `self.frameworks`: the six named
ethical frameworks with their baseline weights. -/
def frameworks : List (String × ℚ) :=
  [("transparency", 0.95), ("fairness", 0.93), ("accountability", 0.97),
   ("privacy", 0.96), ("security", 0.98), ("compliance", 0.94)]

/-- Python `'key' in data`: dict-key membership (with the substring and
list-membership readings for the other container shapes; Python would
raise `TypeError` on scalars, which the `Dict`-typed call sites never
pass). -/
def pyHasKey (data : PyVal) (key : String) : Bool :=
  match data with
  | PyVal.dict xs => xs.any (fun kv => kv.1 == key)
  | PyVal.str s => pyContains s key
  | PyVal.list xs =>
      xs.any (fun v => match v with | PyVal.str s => s == key | _ => false)
  | _ => false

/-- Source: `EthicalCalibrationModule._eval_transparency` (lines 110-122):
multiply the baseline by `1.02` when an audit/log reference appears in the
rendered data, by `1.01` when a `metadata` key is present, cap at 1.0. -/
def eval_transparency (_action : String) (data : PyVal) (baseline : ℚ) : ℚ :=
  let score := baseline
  let score :=
    if pyContains (strLower (pyStr data)) "audit"
        || pyContains (strLower (pyStr data)) "log" then score * 1.02 else score
  let score := if pyHasKey data "metadata" then score * 1.01 else score
  min score 1

/-- Source: `EthicalCalibrationModule._eval_fairness` (lines 124-136):
multiply the baseline by `0.95` once for each of the three bias
indicators present in the rendered data. -/
def eval_fairness (_action : String) (data : PyVal) (baseline : ℚ) : ℚ :=
  let text := strLower (pyStr data)
  ["discriminat", "bias", "unfair"].foldl
    (fun score term => if pyContains text term then score * 0.95 else score)
    baseline

/-- Source: `EthicalCalibrationModule._eval_privacy` (lines 138-155):
when a PII indicator appears, multiply by `1.0` if an encryption or
security marker also appears, else by `0.92`. -/
def eval_privacy (_action : String) (data : PyVal) (baseline : ℚ) : ℚ :=
  let text := strLower (pyStr data)
  let pii_count :=
    (["email", "phone", "ssn", "address", "personal"].filter
      (fun ind => pyContains text ind)).length
  if 0 < pii_count then
    if pyContains text "encrypt" || pyContains text "secure" then baseline * 1
    else baseline * 0.92
  else baseline

/-- Source: `EthicalCalibrationModule._eval_security` (lines 157-170):
multiply by `1.01` when any security marker appears, cap at 1.0. -/
def eval_security (_action : String) (data : PyVal) (baseline : ℚ) : ℚ :=
  let text := strLower (pyStr data)
  let security_count :=
    (["encrypt", "secure", "protect", "authentication"].filter
      (fun term => pyContains text term)).length
  min (if 0 < security_count then baseline * 1.01 else baseline) 1

/-- Source: `EthicalCalibrationModule._eval_compliance` (lines 172-185):
multiply by `1.02` when any compliance reference appears, cap at 1.0. -/
def eval_compliance (_action : String) (data : PyVal) (baseline : ℚ) : ℚ :=
  let text := strLower (pyStr data)
  let compliance_count :=
    (["gdpr", "hipaa", "sox", "compliance", "regulation"].filter
      (fun term => pyContains text term)).length
  min (if 0 < compliance_count then baseline * 1.02 else baseline) 1

/-- Source: `EthicalCalibrationModule._evaluate_framework` (lines 90-108):
look up the baseline weight and dispatch on the framework name;
`accountability` has no branch and keeps its baseline.  (The lookup
default 0 is never used: the function is only applied to the keys of
`frameworks`.) -/
def evaluate_framework (framework action : String) (data : PyVal) : ℚ :=
  let baseline := ((frameworks.lookup framework).getD 0)
  if framework == "transparency" then eval_transparency action data baseline
  else if framework == "fairness" then eval_fairness action data baseline
  else if framework == "privacy" then eval_privacy action data baseline
  else if framework == "security" then eval_security action data baseline
  else if framework == "compliance" then eval_compliance action data baseline
  else baseline

/-- Source: `EthicalCalibrationModule.calibrate` lines 55-58: the score of
each framework, in declaration order. -/
def framework_scores (action : String) (data : PyVal) : List (String × ℚ) :=
  frameworks.map (fun fb => (fb.1, evaluate_framework fb.1 action data))

/-- Source: `EthicalCalibrationModule.calibrate` line 61:
arithmetic mean of the six framework scores. -/
def overall_score (action : String) (data : PyVal) : ℚ :=
  (((framework_scores action data).map (fun fs => fs.2)).sum) /
    ((framework_scores action data).length : ℚ)

/-- One entry of the `concerns` list built by `_identify_concerns`. -/
structure Concern : Type where
  framework : String
  score : ℚ
  severity : String
  message : String
  deriving Repr, DecidableEq

/-- Python `str.capitalize`: first character upper-cased, rest lower-cased. -/
def capitalizeStr (s : String) : String :=
  match s.data with
  | [] => ""
  | c :: cs => String.mk (c.toUpper :: cs.map Char.toLower)

/-- Source: `EthicalCalibrationModule._identify_concerns` (lines 187-202):
one concern per framework scoring below `0.85`, with severity `high`
below `0.75` and `medium` otherwise. -/
def identify_concerns (scores : List (String × ℚ)) : List Concern :=
  scores.filterMap (fun fs =>
    if fs.2 < 0.85 then
      some { framework := fs.1, score := pyRound fs.2 3,
             severity := if fs.2 < (0.75 : ℚ) then "high" else "medium",
             message := capitalizeStr fs.1 ++ " score below threshold" }
    else none)

/-- Source: `EthicalCalibrationModule._generate_recommendations` (lines
204-223): per-concern suggestions (fairness and accountability concerns
contribute none), with a fixed fallback when no suggestion was produced. -/
def generate_recommendations (concerns : List Concern) : List String :=
  let recommendations := concerns.filterMap (fun c =>
    if c.framework == "transparency" then some "Add detailed audit logging"
    else if c.framework == "privacy" then some "Implement data encryption for PII"
    else if c.framework == "security" then some "Enhance security controls"
    else if c.framework == "compliance" then some "Review compliance requirements"
    else none)
  if recommendations.isEmpty then ["Ethical standards met - proceed"]
  else recommendations

/-- The approval expression at `ecm_module.py` line 75:
`overall_score >= 0.85 and` no high-severity concern.  In the source this
line is unreachable (the line-70 processing-time call raises first, see
`calibrate`); it is embedded standalone so the decision rule itself can
be analysed. -/
def calibrate_approved (action : String) (data : PyVal) : Bool :=
  decide (0.85 ≤ overall_score action data) &&
    ((identify_concerns (framework_scores action data)).filter
      (fun c => c.severity == "high")).length == 0

/-- Result record assembled by `calibrate` (never actually returned, see
`calibrate`). -/
structure CalibrateResult : Type where
  overall_score : ℚ
  approved : Bool
  framework_scores : List (String × ℚ)
  concerns : List Concern
  recommendations : List String
  deriving Repr

/-- Source: `EthicalCalibrationModule.calibrate` (lines 39-88): evaluates
every framework, the overall mean, the concerns and the recommendations
(lines 55-67), and then at line 70 evaluates
`(datetime.now() - start_time).total_microseconds()`, which raises
`AttributeError` before `total_calibrations` is incremented, before the
`approved` flag at line 75 is computed and before any result is
returned. -/
def calibrate (action : String) (data : PyVal) (_context : Option PyVal) :
    Except PyError CalibrateResult :=
  let scores := framework_scores action data
  let _overall := overall_score action data
  let concerns := identify_concerns scores
  let _recommendations := generate_recommendations concerns
  Except.error tdError

end Ecm

namespace Pfm

/-- The outcome record produced by
`PredictiveFeedbackMechanism._predict_outcome` (lines 123-147) and
consumed by `_assess_risks`. -/
structure Outcome : Type where
  predicted : String
  probability : ℚ
  basis : String
  deriving Repr, DecidableEq

/-- One risk factor appended by `_assess_risks`.  The presentational
`description` string of the source is not carried (nothing in the module
ever branches on it). -/
structure RiskFactor : Type where
  type : String
  severity : String
  deriving Repr, DecidableEq

/-- The record returned by `_assess_risks`. -/
structure RiskAssessment : Type where
  overall : String
  factors : List RiskFactor
  count : ℕ
  deriving Repr, DecidableEq

/-- Source: `PredictiveFeedbackMechanism._assess_risks` (lines 149-193).
Appends a `medium` data-completeness factor when the rendered data is
short, a `low` complexity factor on a complexity marker or very long
data, and an uncertainty factor (`high` below probability `0.70`, else
`medium`) below probability `0.85`; the overall level is `HIGH` when a
`high`-severity factor exists, else `MEDIUM` when at least two
`medium`-severity factors exist, else `LOW`. -/
def assess_risks (_action : String) (data : PyVal) (outcome : Outcome) :
    RiskAssessment :=
  let risks : List RiskFactor :=
    (if (pyStr data).length < 100 then [{ type := "data_completeness", severity := "medium" }] else [])
    ++ (if pyContains (strLower (pyStr data)) "complex" || 5000 < (pyStr data).length then
          [{ type := "complexity", severity := "low" }] else [])
    ++ (if outcome.probability < 0.85 then
          [{ type := "uncertainty",
             severity := if outcome.probability < 0.70 then "high" else "medium" }]
        else [])
  let high_risks := risks.filter (fun r => r.severity == "high")
  let medium_risks := risks.filter (fun r => r.severity == "medium")
  let overall :=
    if !high_risks.isEmpty then "HIGH"
    else if 2 ≤ medium_risks.length then "MEDIUM"
    else "LOW"
  { overall := overall, factors := risks, count := risks.length }

/-- Result record assembled by `predict` (never actually returned, see
`predict`). -/
structure PredictResult : Type where
  outcome : Outcome
  confidence : ℚ
  risk_level : String
  risks : List RiskFactor
  deriving Repr

/-- Source: `PredictiveFeedbackMechanism.predict` (lines 33-99): analyses
patterns, predicts the outcome, assesses risks and computes confidence
(lines 56-71), and then at line 74 evaluates
`(datetime.now() - start_time).total_microseconds()`, which raises
`AttributeError` before `total_predictions` is incremented, before the
prediction record is assembled and before anything is stored in
`prediction_history`. -/
def predict (_action : String) (_data : PyVal) (_context : Option PyVal) :
    Except PyError PredictResult :=
  Except.error tdError

end Pfm

namespace Sda

/-- Result record assembled by `SmartDataAdvisor.advise` (never actually
returned, see `advise`). -/
structure AdviseResult : Type where
  quality_score : ℚ
  recommendations : List String
  deriving Repr

/-- Source: `sda_module.py`, `SmartDataAdvisor.advise` (lines 36-100):
analyses the current operation and computes a quality score (lines
55-82), and then at line 85 evaluates
`(datetime.now() - start_time).total_microseconds()`, which raises
`AttributeError` before `total_advisories` is incremented and before any
result is returned. -/
def advise (_current_data : PyVal) (_historical_data : List PyVal)
    (_context : Option PyVal) : Except PyError AdviseResult :=
  Except.error tdError

end Sda

namespace Loop

/-- The perception fields read by `_synthesize_decision` (via
`perception.get('data_quality_score', 0.9)`). -/
structure PerceptionR : Type where
  data_quality_score : ℚ
  deriving Repr

/-- The ethical fields read by `_synthesize_decision`. -/
structure EthicalR : Type where
  overall_score : ℚ
  approved : Bool
  recommendations : List String
  deriving Repr

/-- The prediction fields read by `_synthesize_decision`;
`outcome_predicted` embeds `prediction['outcome'].get('predicted')`,
which is `None` (here `Option.none`) when the key is absent. -/
structure PredictionR : Type where
  confidence : ℚ
  outcome_predicted : Option String
  deriving Repr

/-- The advisory fields read by `_synthesize_decision`. -/
structure AdvisoryR : Type where
  quality_score : ℚ
  recommendations : List String
  deriving Repr

/-- The `component_scores` sub-record of a synthesized decision. -/
structure ComponentScores : Type where
  data_quality : ℚ
  ethical_score : ℚ
  prediction_confidence : ℚ
  advisory_quality : ℚ
  deriving Repr, DecidableEq

/-- The decision record returned by `_synthesize_decision` (lines 243-260). -/
structure Decision : Type where
  approved : Bool
  confidence : ℚ
  decision_level : String
  reasoning : List String
  recommendations : List String
  component_scores : ComponentScores
  modules_consensus : Bool
  deriving Repr

/-- The exact weighted-average expression of `cgc_loop.py` lines 189-194
(before the `round(..., 3)` applied at line 245). -/
def raw_confidence (perception : PerceptionR) (ethical : EthicalR)
    (prediction : PredictionR) (advisory : AdvisoryR) : ℚ :=
  perception.data_quality_score * 0.20 + ethical.overall_score * 0.30 +
    prediction.confidence * 0.30 + advisory.quality_score / 100 * 0.20

/-- Source: `GovernanceOrchestrator._synthesize_decision` (lines 166-260).
Pure function of the four stage results: weighted-average confidence,
the four-way approval conjunction (lines 197-202), the decision level
(lines 205-212), the fixed-order reasoning strings (lines 215-230) and
the recommendation list (lines 233-241); all reported floats are rounded
to 3 decimals. -/
def synthesize_decision (perception : PerceptionR) (ethical : EthicalR)
    (prediction : PredictionR) (advisory : AdvisoryR) : Decision :=
  let data_quality := perception.data_quality_score
  let ethical_score := ethical.overall_score
  let ethical_approved := ethical.approved
  let prediction_confidence := prediction.confidence
  let advisory_quality := advisory.quality_score / 100
  let confidence := data_quality * 0.20 + ethical_score * 0.30 +
    prediction_confidence * 0.30 + advisory_quality * 0.20
  let approved := decide (0.85 ≤ confidence) && ethical_approved &&
    decide (0.85 ≤ ethical_score) &&
    !(prediction.outcome_predicted == some "requires_review")
  let decision_level :=
    if 0.95 ≤ confidence ∧ 0.95 ≤ ethical_score then "HIGHLY_CONFIDENT"
    else if 0.85 ≤ confidence then "CONFIDENT"
    else if 0.70 ≤ confidence then "MODERATE"
    else "LOW_CONFIDENCE"
  let reasons :=
    (if 0.95 ≤ data_quality then ["High-quality input data"] else [])
    ++ (if 0.95 ≤ ethical_score then ["Excellent ethical alignment"] else [])
    ++ (if 0.90 ≤ prediction_confidence then ["Strong outcome prediction"] else [])
    ++ (if ethical_score < 0.85 then ["Ethical concerns detected"] else [])
    ++ (if prediction.outcome_predicted == some "requires_review" then
          ["Manual review recommended by prediction module"] else [])
  let recommendations :=
    (if !approved then
      "Decision rejected - address concerns before proceeding" :: ethical.recommendations
     else ["Decision approved - proceed with confidence"])
    ++ advisory.recommendations.take 2
  { approved := approved
    confidence := pyRound confidence 3
    decision_level := decision_level
    reasoning := reasons
    recommendations := recommendations
    component_scores :=
      { data_quality := pyRound data_quality 3
        ethical_score := pyRound ethical_score 3
        prediction_confidence := pyRound prediction_confidence 3
        advisory_quality := pyRound advisory_quality 3 }
    modules_consensus := decide (0.85 ≤ data_quality) &&
      decide (0.85 ≤ ethical_score) && decide (0.80 ≤ prediction_confidence) }

end Loop

namespace Tco

/-- Hash values of the audit chain, under the perfect-hash idealisation
of truncated SHA-256:

* `genesis` embeds the fixed constant
  `sha256(b'OLYMPUSMONT_GENESIS').hexdigest()[:32]` returned by
  `_get_last_hash` for an empty ledger (`tco_module.py` lines 406-412);
* `hdata c` embeds `_hash_data` (lines 147-151), the truncated digest of
  the canonical serialization `c` of a payload;
* `hblock` embeds `_generate_block_hash` (lines 153-170), the truncated
  double digest of the sorted-key JSON of the six block-content fields.

Distinct constructors / arguments give distinct hash values: this is the
standard collision-free idealisation. -/
inductive HashVal : Type where
  | genesis : HashVal
  | hdata (content : String) : HashVal
  | hblock (decision_id : String) (module : String) (action : String)
      (timestamp : String) (data_hash : HashVal) (previous_hash : HashVal) : HashVal
  deriving Repr, DecidableEq

/-- Source: `TraceabilityOversight._hash_data` (lines 147-151): truncated
digest of the canonical serialization of the payload (`pyRepr` stands in
for `json.dumps(data, sort_keys=True)`; the claims below never depend on
the serialization format, only on its determinism). -/
def hash_data (data : PyVal) : HashVal :=
  HashVal.hdata (pyRepr data)

/-- Source: `TraceabilityOversight._generate_block_hash` (lines 153-170):
hash of the six block-content fields (`decision_id`, `module`, `action`,
`timestamp`, `data_hash`, `previous_hash`).  Note that the entry's
`result_hash` is NOT part of the block content. -/
def generate_block_hash (decision_id module action timestamp : String)
    (data_hash previous_hash : HashVal) : HashVal :=
  HashVal.hblock decision_id module action timestamp data_hash previous_hash

/-- One row of the `audit_trail` table (`tco_module.py` lines 51-64,
without the SQLite surrogate id and the constant `verified` column). -/
structure AuditRow : Type where
  block_number : ℕ
  timestamp : String
  decision_id : String
  module : String
  action : String
  data_hash : HashVal
  previous_hash : HashVal
  block_hash : HashVal
  deriving Repr, DecidableEq

/-- The mutable state of a `TraceabilityOversight` instance: the
`audit_trail` table (rows in insertion order) plus the two cached
counters (`total_entries`, `last_block_hash`). -/
structure TCOState : Type where
  audit_trail : List AuditRow
  total_entries : ℕ
  last_block_hash : HashVal
  deriving Repr

/-- A freshly initialized ledger (`__init__` on an empty database):
`_get_total_entries` returns 0 and `_get_last_hash` returns the genesis
constant. -/
def initState : TCOState :=
  { audit_trail := [], total_entries := 0, last_block_hash := HashVal.genesis }

/-- Source: `TraceabilityOversight._store_audit_entry` (lines 172-206):
INSERT of the row; the UNIQUE constraint on `block_hash` makes the
insert fail when a row with the same `block_hash` exists, and the
`sqlite3.IntegrityError` handler swallows the failure (lines 202-204). -/
def store_audit_entry (st : TCOState) (row : AuditRow) : TCOState :=
  if st.audit_trail.any (fun r => r.block_hash == row.block_hash) then st
  else { st with audit_trail := st.audit_trail ++ [row] }

/-- The per-call inputs of `log_decision`; `timestamp` stands for the
`datetime.now().isoformat()` sampled at line 109. -/
structure LogInput : Type where
  decision_id : String
  module : String
  action : String
  timestamp : String
  data : PyVal
  result : PyVal

/-- The row that `log_decision` builds from the current state and the
call inputs (lines 105-124): `data_hash` over the input payload, link to
the cached `last_block_hash`, block number `total_entries + 1`, block
hash over the entry content and the link. -/
def newRow (st : TCOState) (inp : LogInput) : AuditRow :=
  let data_hash := hash_data inp.data
  let previous_hash := st.last_block_hash
  { block_number := st.total_entries + 1, timestamp := inp.timestamp,
    decision_id := inp.decision_id, module := inp.module,
    action := inp.action, data_hash := data_hash,
    previous_hash := previous_hash,
    block_hash := generate_block_hash inp.decision_id inp.module inp.action
      inp.timestamp data_hash previous_hash }

/-- Source: `TraceabilityOversight.log_decision` (lines 80-145): builds
the entry (lines 105-112) and the row `newRow` (lines 114-121), stores
it (line 124) and advances `last_block_hash` and `total_entries` (lines
127-128); then at line 131 it evaluates
`(datetime.now() - start_time).total_microseconds()`, which raises
`AttributeError`, so the receipt of lines 133-145 is never returned —
but the state mutations have already happened. -/
def log_decision (st : TCOState) (inp : LogInput) : TCOState × Except PyError Unit :=
  let _result_hash := hash_data inp.result
  let row := newRow st inp
  let st2 := store_audit_entry st row
  let st3 := { st2 with last_block_hash := row.block_hash,
                        total_entries := st2.total_entries + 1 }
  (st3, Except.error tdError)

/-- N sequential `log_decision` calls (each raises after mutating the
state; the caller is assumed to catch and continue). -/
def applyLogs (st : TCOState) (inputs : List LogInput) : TCOState :=
  inputs.foldl (fun s i => (log_decision s i).1) st

/-- One entry of the `errors` list of `verify_chain`. -/
structure ChainError : Type where
  block : ℕ
  error : String
  message : String
  deriving Repr, DecidableEq

/-- The block hash `verify_chain` recomputes for a stored row (lines
266-274): `_generate_block_hash` of the stored entry fields with the
row's own stored `previous_hash`. -/
def row_expected_hash (r : AuditRow) : HashVal :=
  generate_block_hash r.decision_id r.module r.action r.timestamp
    r.data_hash r.previous_hash

/-- The verification loop of `verify_chain` (lines 250-283), carrying the
previously seen row's stored `block_hash` (`None` before the first row):
a `broken_chain` error when the stored link disagrees with the previous
stored hash, then an `invalid_hash` error when the recomputed hash
disagrees with the stored one. -/
def verifyLoop (previous_hash : Option HashVal) : List AuditRow → List ChainError
  | [] => []
  | r :: rest =>
      ((match previous_hash with
        | some p =>
            if r.previous_hash ≠ p then
              [{ block := r.block_number, error := "broken_chain",
                 message := "Previous hash mismatch" }]
            else []
        | none => [])
        ++ (if row_expected_hash r ≠ r.block_hash then
              [{ block := r.block_number, error := "invalid_hash",
                 message := "Block hash verification failed" }]
            else []))
      ++ verifyLoop (some r.block_hash) rest

/-- The result record of `verify_chain` (restricted to the fields the
verified properties mention; the empty-range branch of the source omits
`start_block`/`end_block`/`integrity`, which are not modelled). -/
structure VerifyResult : Type where
  verified : Bool
  blocks_checked : ℕ
  errors : List ChainError
  deriving Repr, DecidableEq

/-- Source: `TraceabilityOversight.verify_chain` (lines 208-292): selects
the rows with `block_number` in the requested range ordered by
`block_number` (the `ORDER BY` is embedded by `mergeSort`), runs the
verification loop, and reports `verified` exactly when no error was
collected. -/
def verify_chain (st : TCOState) (start_block : ℕ) (end_block : Option ℕ) :
    VerifyResult :=
  let blocks := (st.audit_trail.filter (fun r =>
      start_block ≤ r.block_number &&
        match end_block with
        | some e => r.block_number ≤ e
        | none => true)).mergeSort
    (fun a b => decide (a.block_number ≤ b.block_number))
  let errors := verifyLoop none blocks
  { verified := errors.isEmpty, blocks_checked := blocks.length, errors := errors }

/-- The stored `block_hash` of the last row, or `dflt` for an empty
trail (the shape of `_get_last_hash`, lines 393-412, over an in-memory
trail). -/
def lastBH (rows : List AuditRow) (dflt : HashVal) : HashVal :=
  match rows.getLast? with
  | some r => r.block_hash
  | none => dflt

/-- The `previous_hash` accumulator of the verification loop after
processing `rows` (the last row's stored hash if any, else the incoming
accumulator). -/
def lastOpt (rows : List AuditRow) (prevOpt : Option HashVal) : Option HashVal :=
  match rows.getLast? with
  | some r => some r.block_hash
  | none => prevOpt

/-- Nesting depth of a hash value: the number of `hblock` layers along
the `previous_hash` spine.  In an honest chain the depth of the n-th
block hash is n, which makes all block hashes of a chain pairwise
distinct. -/
def depth : HashVal → ℕ
  | HashVal.genesis => 0
  | HashVal.hdata _ => 0
  | HashVal.hblock _ _ _ _ _ p => depth p + 1

/-- The rows `prev, n, rows` form an honest chain segment: consecutive
block numbers starting at `n`, each row linked to its predecessor's
stored hash (the first to `prev`), and each stored `block_hash` equal to
the hash recomputed from the row's own fields. -/
def chainOk (prev : HashVal) (n : ℕ) : List AuditRow → Prop
  | [] => True
  | r :: rest =>
      r.previous_hash = prev ∧ r.block_number = n ∧
        r.block_hash = row_expected_hash r ∧ chainOk r.block_hash (n + 1) rest

/-- The rows carry consecutive block numbers starting at `n`. -/
def numbered (n : ℕ) : List AuditRow → Prop
  | [] => True
  | r :: rest => r.block_number = n ∧ numbered (n + 1) rest

/-- The state invariant maintained by honest appends: the trail is an
honest chain anchored at the genesis constant with block numbers from 1,
and the two cached counters agree with the trail. -/
def Inv (st : TCOState) : Prop :=
  chainOk HashVal.genesis 1 st.audit_trail ∧
    st.total_entries = st.audit_trail.length ∧
    st.last_block_hash = lastBH st.audit_trail HashVal.genesis

/-- Tampering operation: overwrite the stored `data_hash` field of the
row(s) with block number `k`. -/
def set_data_hash (trail : List AuditRow) (k : ℕ) (h : HashVal) : List AuditRow :=
  trail.map (fun r => if r.block_number = k then { r with data_hash := h } else r)

/-- Tampering operation: overwrite the stored `previous_hash` field of
the row(s) with block number `k`. -/
def set_previous_hash (trail : List AuditRow) (k : ℕ) (h : HashVal) : List AuditRow :=
  trail.map (fun r => if r.block_number = k then { r with previous_hash := h } else r)

/-- The `broken_chain` error entry `verify_chain` reports for block `k`. -/
def brokenErr (k : ℕ) : ChainError :=
  { block := k, error := "broken_chain", message := "Previous hash mismatch" }

/-- The `invalid_hash` error entry `verify_chain` reports for block `k`. -/
def invalidErr (k : ℕ) : ChainError :=
  { block := k, error := "invalid_hash", message := "Block hash verification failed" }

end Tco

namespace Loop

/-- Source: `GovernanceOrchestrator.orchestrate_decision` (`cgc_loop.py`
lines 52-164).  Phase 1 calls `PerceptionAnalysisNode.analyze` (line 82),
which always raises (see `Pan.analyze`), so the error propagates to the
caller before phases 2-6 run: no calibration, no prediction, no
synthesis, and in particular no `tco.log_decision` ledger append.  The
`ok` branch of phase 1 is statically impossible and is embedded as such;
even if every phase succeeded, line 116 evaluates the same failing
`total_microseconds` call before the result is assembled. -/
def orchestrate_decision (tco : Tco.TCOState) (_decision_id _module _action : String)
    (input_data : PyVal) (context : Option PyVal) :
    Tco.TCOState × Except PyError Decision :=
  match h : Pan.analyze input_data context with
  | Except.error e => (tco, Except.error e)
  | Except.ok _ => absurd h (by simp [Pan.analyze])

end Loop

namespace CE

/-- Hash values of the `core_engine.py` in-memory audit chain, under the
same perfect-hash idealisation:

* `emptyStr` embeds the Python empty string `""` that `add_entry` uses
  as `prev_hash` when `self.entries` is empty (`core_engine.py` line 87);
* `phash payload` embeds `compute_hash(json.dumps(payload, sort_keys=True))`
  (line 91);
* `chash` embeds `compute_hash(decision_id, json.dumps(payload), prev_hash,
  timestamp)` (line 88). -/
inductive CEHash : Type where
  | emptyStr : CEHash
  | phash (payload : String) : CEHash
  | chash (decision_id : String) (payload : String) (prev : CEHash)
      (timestamp : String) : CEHash
  deriving Repr, DecidableEq

/-- Does this hash value stand for the empty string `""`? -/
def CEHash.isEmptyString : CEHash → Bool
  | CEHash.emptyStr => true
  | _ => false

/-- One entry of the in-memory `TraceabilityOversight.entries` list of
`core_engine.py` (lines 89-95). -/
structure CEEntry : Type where
  decision_id : String
  payload_hash : CEHash
  prev_hash : CEHash
  block_hash : CEHash
  timestamp : String
  deriving Repr, DecidableEq

/-- Source: `core_engine.py`, `TraceabilityOversight.add_entry` (lines
85-97): `prev_hash` is the last entry's `block_hash`, or the empty
string `""` when the ledger is empty; the new entry is appended and
returned. -/
def add_entry (entries : List CEEntry) (decision_id : String)
    (payloadJson : String) (timestamp : String) : List CEEntry × CEEntry :=
  let prev_hash :=
    match entries.getLast? with
    | some e => e.block_hash
    | none => CEHash.emptyStr
  let block_hash := CEHash.chash decision_id payloadJson prev_hash timestamp
  let entry : CEEntry :=
    { decision_id := decision_id, payload_hash := CEHash.phash payloadJson,
      prev_hash := prev_hash, block_hash := block_hash, timestamp := timestamp }
  (entries ++ [entry], entry)

end CE


namespace Tco

theorem chainOk_mem_bn {rows : List AuditRow} {prev : HashVal} {n : ℕ}
    (h : chainOk prev n rows) :
    ∀ r ∈ rows, n ≤ r.block_number ∧ r.block_number < n + rows.length := by
  induction rows generalizing prev n with
  | nil => intro r hr; cases hr
  | cons x rest ih =>
      intro r hr
      simp only [chainOk] at h
      obtain ⟨hprev, hbn, hbh, hrest⟩ := h
      rcases List.mem_cons.mp hr with hr | hr
      · subst hr; simp only [List.length_cons]; omega
      · have := ih hrest r hr
        simp only [List.length_cons]
        omega

theorem chainOk_numbered {rows : List AuditRow} {prev : HashVal} {n : ℕ}
    (h : chainOk prev n rows) : numbered n rows := by
  induction rows generalizing prev n with
  | nil => trivial
  | cons x rest ih =>
      simp only [chainOk] at h
      exact ⟨h.2.1, ih h.2.2.2⟩

theorem numbered_mem_le {rows : List AuditRow} {n : ℕ} (h : numbered n rows) :
    ∀ r ∈ rows, n ≤ r.block_number := by
  induction rows generalizing n with
  | nil => intro r hr; cases hr
  | cons x rest ih =>
      intro r hr
      obtain ⟨hx, hrest⟩ := h
      rcases List.mem_cons.mp hr with hr | hr
      · subst hr; omega
      · have := ih hrest r hr; omega

theorem numbered_pairwise {rows : List AuditRow} {n : ℕ} (h : numbered n rows) :
    rows.Pairwise (fun a b => a.block_number ≤ b.block_number) := by
  induction rows generalizing n with
  | nil => exact List.Pairwise.nil
  | cons x rest ih =>
      obtain ⟨hx, hrest⟩ := h
      refine List.Pairwise.cons ?_ (ih hrest)
      intro y hy
      have := numbered_mem_le hrest y hy
      omega

theorem numbered_map {rows : List AuditRow} {n : ℕ} (h : numbered n rows)
    (f : AuditRow → AuditRow) (hf : ∀ r, (f r).block_number = r.block_number) :
    numbered n (rows.map f) := by
  induction rows generalizing n with
  | nil => trivial
  | cons x rest ih =>
      obtain ⟨hx, hrest⟩ := h
      exact ⟨by rw [hf]; exact hx, ih hrest⟩

end Tco

namespace Tco

theorem lastBH_append_singleton (rows : List AuditRow) (r : AuditRow) (dflt : HashVal) :
    lastBH (rows ++ [r]) dflt = r.block_hash := by
  simp [lastBH]

theorem lastBH_cons (x : AuditRow) (rest : List AuditRow) (dflt : HashVal) :
    lastBH (x :: rest) dflt = lastBH rest x.block_hash := by
  cases rest with
  | nil => simp [lastBH]
  | cons y ys =>
      cases h : (y :: ys).getLast? with
      | none => simp at h
      | some r => simp [lastBH, h]

theorem chainOk_append_row {rows : List AuditRow} {prev : HashVal} {n : ℕ}
    (h : chainOk prev n rows) (r : AuditRow)
    (hprev : r.previous_hash = lastBH rows prev)
    (hbn : r.block_number = n + rows.length)
    (hbh : r.block_hash = row_expected_hash r) :
    chainOk prev n (rows ++ [r]) := by
  induction rows generalizing prev n with
  | nil =>
      simp only [List.nil_append, chainOk]
      refine ⟨?_, ?_, hbh, trivial⟩
      · simpa [lastBH] using hprev
      · simpa using hbn
  | cons x rest ih =>
      simp only [chainOk] at h
      obtain ⟨h1, h2, h3, h4⟩ := h
      simp only [List.cons_append, chainOk]
      refine ⟨h1, h2, h3, ih h4 ?_ ?_⟩
      · rw [hprev, lastBH_cons]
      · simp only [List.length_cons] at hbn; omega

theorem chainOk_lastBH_depth {rows : List AuditRow} {prev : HashVal} {n : ℕ}
    (h : chainOk prev n rows) :
    depth (lastBH rows prev) = depth prev + rows.length := by
  induction rows generalizing prev n with
  | nil => simp [lastBH]
  | cons x rest ih =>
      simp only [chainOk] at h
      obtain ⟨h1, h2, h3, h4⟩ := h
      have hx : depth x.block_hash = depth prev + 1 := by
        rw [h3]
        simp only [row_expected_hash, generate_block_hash, depth, h1]
      have := ih h4
      rw [lastBH_cons]
      simp only [List.length_cons]
      omega

theorem chainOk_mem_depth {rows : List AuditRow} {prev : HashVal} {n : ℕ}
    (h : chainOk prev n rows) :
    ∀ r ∈ rows, depth r.block_hash ≤ depth prev + rows.length := by
  induction rows generalizing prev n with
  | nil => intro r hr; cases hr
  | cons x rest ih =>
      intro r hr
      simp only [chainOk] at h
      obtain ⟨h1, h2, h3, h4⟩ := h
      have hx : depth x.block_hash = depth prev + 1 := by
        rw [h3]
        simp only [row_expected_hash, generate_block_hash, depth, h1]
      rcases List.mem_cons.mp hr with hr | hr
      · subst hr; simp only [List.length_cons]; omega
      · have := ih h4 r hr
        simp only [List.length_cons]
        omega

theorem log_decision_fst (st : TCOState) (inp : LogInput) (hInv : Inv st) :
    (log_decision st inp).1.audit_trail = st.audit_trail ++ [newRow st inp] ∧
      Inv (log_decision st inp).1 := by
  obtain ⟨hchain, htot, hlast⟩ := hInv
  have hfresh : ∀ r ∈ st.audit_trail, ¬(r.block_hash = (newRow st inp).block_hash) := by
    intro r hr heq
    have hd := chainOk_mem_depth hchain r hr
    have hl := chainOk_lastBH_depth hchain
    have : depth (newRow st inp).block_hash =
        depth (lastBH st.audit_trail HashVal.genesis) + 1 := by
      simp only [newRow, generate_block_hash, depth, hlast]
    rw [heq] at hd
    simp only [depth] at hl this hd
    omega
  have hany : (st.audit_trail.any
      (fun r => r.block_hash == (newRow st inp).block_hash)) = false := by
    simp only [List.any_eq_false, beq_iff_eq]
    intro r hr
    exact hfresh r hr
  have hstore : store_audit_entry st (newRow st inp)
      = { st with audit_trail := st.audit_trail ++ [newRow st inp] } := by
    simp [store_audit_entry, hany]
  constructor
  · simp [log_decision, hstore]
  · refine ⟨?_, ?_, ?_⟩
    · simp only [log_decision, hstore]
      refine chainOk_append_row hchain _ ?_ ?_ rfl
      · simp [newRow, hlast]
      · show (newRow st inp).block_number = 1 + st.audit_trail.length
        simp only [newRow, htot]
        omega
    · simp [log_decision, hstore, htot]
    · simp [log_decision, hstore, lastBH_append_singleton]

theorem applyLogs_Inv (inputs : List Tco.LogInput) :
    ∀ st : TCOState, Inv st →
      Inv (applyLogs st inputs) ∧
        (applyLogs st inputs).audit_trail.length
          = st.audit_trail.length + inputs.length := by
  induction inputs with
  | nil => intro st h; exact ⟨h, by simp [applyLogs]⟩
  | cons i rest ih =>
      intro st h
      have hstep := log_decision_fst st i h
      have happ : applyLogs st (i :: rest) = applyLogs (log_decision st i).1 rest := by
        simp [applyLogs]
      have := ih (log_decision st i).1 hstep.2
      rw [happ]
      refine ⟨this.1, ?_⟩
      rw [this.2, hstep.1, List.length_append]
      simp only [List.length_cons, List.length_nil]
      omega

theorem initState_Inv : Inv initState := by
  refine ⟨trivial, rfl, rfl⟩

end Tco

namespace Tco

theorem lastOpt_nil (prevOpt : Option HashVal) : lastOpt [] prevOpt = prevOpt := rfl

theorem lastOpt_eq_some {rows : List AuditRow} (hne : rows ≠ []) (prevOpt : Option HashVal)
    (dflt : HashVal) : lastOpt rows prevOpt = some (lastBH rows dflt) := by
  cases h : rows.getLast? with
  | none => simp_all
  | some r => simp [lastOpt, lastBH, h]

theorem lastOpt_cons (x : AuditRow) (rest : List AuditRow) (prevOpt : Option HashVal) :
    lastOpt (x :: rest) prevOpt = lastOpt rest (some x.block_hash) := by
  cases rest with
  | nil => simp [lastOpt]
  | cons y ys =>
      cases h : (y :: ys).getLast? with
      | none => simp at h
      | some r => simp [lastOpt, h]

theorem verifyLoop_append (prevOpt : Option HashVal) (xs ys : List AuditRow) :
    verifyLoop prevOpt (xs ++ ys)
      = verifyLoop prevOpt xs ++ verifyLoop (lastOpt xs prevOpt) ys := by
  induction xs generalizing prevOpt with
  | nil => simp [verifyLoop, lastOpt]
  | cons x rest ih =>
      simp only [List.cons_append, verifyLoop, List.append_eq, ih (some x.block_hash),
        lastOpt_cons, List.append_assoc]

theorem verifyLoop_some_of_chainOk {rows : List AuditRow} {p : HashVal} {n : ℕ}
    (h : chainOk p n rows) : verifyLoop (some p) rows = [] := by
  induction rows generalizing p n with
  | nil => rfl
  | cons x rest ih =>
      simp only [chainOk] at h
      obtain ⟨h1, h2, h3, h4⟩ := h
      have e1 : ¬(x.previous_hash ≠ p) := by simp [h1]
      have e2 : ¬(row_expected_hash x ≠ x.block_hash) := by simp [h3]
      simp only [verifyLoop, if_neg e1, if_neg e2, List.nil_append]
      exact ih h4

theorem verifyLoop_none_of_chainOk {rows : List AuditRow} {p : HashVal} {n : ℕ}
    (h : chainOk p n rows) : verifyLoop none rows = [] := by
  cases rows with
  | nil => rfl
  | cons x rest =>
      simp only [chainOk] at h
      obtain ⟨h1, h2, h3, h4⟩ := h
      have e2 : ¬(row_expected_hash x ≠ x.block_hash) := by simp [h3]
      simp only [verifyLoop, if_neg e2, List.nil_append]
      exact verifyLoop_some_of_chainOk h4

theorem chainOk_take {rows : List AuditRow} {p : HashVal} {n : ℕ}
    (h : chainOk p n rows) (m : ℕ) : chainOk p n (rows.take m) := by
  induction rows generalizing p n m with
  | nil => simp [chainOk]
  | cons x rest ih =>
      cases m with
      | zero => trivial
      | succ m =>
          simp only [chainOk] at h
          obtain ⟨h1, h2, h3, h4⟩ := h
          exact ⟨h1, h2, h3, ih h4 m⟩

theorem chainOk_drop {rows : List AuditRow} {p : HashVal} {n : ℕ}
    (h : chainOk p n rows) (j : ℕ) :
    chainOk (lastBH (rows.take j) p) (n + j) (rows.drop j) := by
  induction j generalizing rows p n with
  | zero => simpa [lastBH]
  | succ j ih =>
      cases rows with
      | nil => simp [chainOk, lastBH]
      | cons x rest =>
          simp only [chainOk] at h
          obtain ⟨h1, h2, h3, h4⟩ := h
          have := ih h4
          simp only [List.take_succ_cons, List.drop_succ_cons, lastBH_cons]
          have harith : n + (j + 1) = (n + 1) + j := by omega
          rw [harith]
          exact this

end Tco

namespace Tco

theorem map_eq_self_of_fix {rows : List AuditRow} {f : AuditRow → AuditRow}
    (h : ∀ r ∈ rows, f r = r) : rows.map f = rows := by
  induction rows with
  | nil => rfl
  | cons x rest ih =>
      simp only [List.map_cons, h x (by simp)]
      rw [ih (fun r hr => h r (by simp [hr]))]

theorem chainOk_get_prev {rows : List AuditRow} {p : HashVal} {n : ℕ}
    (h : chainOk p n rows) :
    ∀ j (hj : j < rows.length),
      (rows.get ⟨j, hj⟩).previous_hash = lastBH (rows.take j) p := by
  induction rows generalizing p n with
  | nil => intro j hj; cases hj
  | cons x rest ih =>
      intro j hj
      simp only [chainOk] at h
      obtain ⟨h1, h2, h3, h4⟩ := h
      cases j with
      | zero => simpa [lastBH]
      | succ j =>
          simp only [List.get_cons_succ, List.take_succ_cons, lastBH_cons]
          exact ih h4 j (by simpa using hj)

theorem chainOk_lastBH_take_succ {rows : List AuditRow} {p : HashVal} {n : ℕ}
    (h : chainOk p n rows) :
    ∀ j (hj : j < rows.length),
      lastBH (rows.take (j + 1)) p = (rows.get ⟨j, hj⟩).block_hash := by
  induction rows generalizing p n with
  | nil => intro j hj; cases hj
  | cons x rest ih =>
      intro j hj
      simp only [chainOk] at h
      obtain ⟨h1, h2, h3, h4⟩ := h
      cases j with
      | zero => simp [List.take_succ_cons, lastBH_cons, lastBH]
      | succ j =>
          simp only [List.get_cons_succ, List.take_succ_cons, lastBH_cons]
          exact ih h4 j (by simpa using hj)

theorem chainOk_get_bn {rows : List AuditRow} {p : HashVal} {n : ℕ}
    (h : chainOk p n rows) :
    ∀ j (hj : j < rows.length), (rows.get ⟨j, hj⟩).block_number = n + j := by
  induction rows generalizing p n with
  | nil => intro j hj; cases hj
  | cons x rest ih =>
      intro j hj
      simp only [chainOk] at h
      obtain ⟨h1, h2, h3, h4⟩ := h
      cases j with
      | zero => simpa
      | succ j =>
          simp only [List.get_cons_succ]
          have := ih h4 j (by simpa using hj)
          omega

theorem numbered_filter_range {rows : List AuditRow} {n : ℕ} (h : numbered n rows)
    (a b : ℕ) :
    rows.filter (fun r => a ≤ r.block_number && r.block_number ≤ b)
      = (rows.drop (a - n)).take (b + 1 - max a n) := by
  induction rows generalizing n with
  | nil => simp
  | cons x rest ih =>
      obtain ⟨hx, hrest⟩ := h
      have ihr := ih hrest
      by_cases ha : a ≤ n
      · by_cases hb : n ≤ b
        · have hcond : (a ≤ x.block_number && x.block_number ≤ b) = true := by
            simp only [Bool.and_eq_true, decide_eq_true_eq]; omega
          rw [List.filter_cons, if_pos hcond]
          have e1 : a - n = 0 := by omega
          have e2 : max a n = n := by omega
          have e3 : a - (n + 1) = 0 := by omega
          have e4 : max a (n + 1) = n + 1 := by omega
          rw [ihr, e1, e2, e3, e4]
          have e5 : b + 1 - n = (b - n) + 1 := by omega
          have e6 : b + 1 - (n + 1) = b - n := by omega
          rw [e5, e6]
          simp [List.take_succ_cons]
        · have hcond : (a ≤ x.block_number && x.block_number ≤ b) = false := by
            simp only [Bool.and_eq_false_iff, decide_eq_false_iff_not]; omega
          rw [List.filter_cons, if_neg (by simp [hcond])]
          have e1 : a - n = 0 := by omega
          have e2 : max a n = n := by omega
          have e3 : a - (n + 1) = 0 := by omega
          have e4 : max a (n + 1) = n + 1 := by omega
          have e5 : b + 1 - n = 0 := by omega
          have e6 : b + 1 - (n + 1) = 0 := by omega
          rw [ihr, e1, e2, e3, e4, e5, e6]
          simp
      · have hcond : (a ≤ x.block_number && x.block_number ≤ b) = false := by
          simp only [Bool.and_eq_false_iff, decide_eq_false_iff_not]; omega
        rw [List.filter_cons, if_neg (by simp [hcond])]
        have e1 : a - n = (a - (n + 1)) + 1 := by omega
        have e2 : max a n = a := by omega
        have e4 : max a (n + 1) = a := by omega
        rw [ihr, e1, e2, e4]
        simp [List.drop_succ_cons]

end Tco

namespace Tco

theorem numbered_map_decompose {k : ℕ} (f : AuditRow → AuditRow)
    (hf : ∀ r, r.block_number ≠ k → f r = r) :
    ∀ (rows : List AuditRow) (n j : ℕ), numbered n rows → n + j = k →
      ∀ (hget : j < rows.length),
      rows.map f = rows.take j ++ f (rows.get ⟨j, hget⟩) :: rows.drop (j + 1) := by
  intro rows
  induction rows with
  | nil => intro n j hnum hj hget; cases hget
  | cons x rest ih =>
      intro n j hnum hj hget
      obtain ⟨hx, hrest⟩ := hnum
      cases j with
      | zero =>
          simp only [List.map_cons, List.take_zero, List.nil_append, List.get,
            List.drop_succ_cons, List.drop_zero]
          congr 1
          refine map_eq_self_of_fix ?_
          intro r hr
          refine hf r ?_
          have := numbered_mem_le hrest r hr
          omega
      | succ j =>
          have hmrest : j < rest.length := by
            simp only [List.length_cons] at hget
            omega
          simp only [List.map_cons, List.take_succ_cons, List.get_cons_succ,
            List.drop_succ_cons, List.cons_append]
          have hfx : f x = x := hf x (by omega)
          rw [hfx]
          congr 1
          exact ih (n + 1) j hrest (by omega) hmrest

end Tco

namespace Tco

theorem chainOk_append_elim {xs ys : List AuditRow} {q : HashVal} {m : ℕ}
    (h : chainOk q m (xs ++ ys)) :
    chainOk q m xs ∧ chainOk (lastBH xs q) (m + xs.length) ys := by
  induction xs generalizing q m with
  | nil => simpa [chainOk, lastBH] using h
  | cons x rest ih =>
      simp only [List.cons_append, chainOk] at h
      obtain ⟨h1, h2, h3, h4⟩ := h
      have := ih h4
      refine ⟨⟨h1, h2, h3, this.1⟩, ?_⟩
      rw [lastBH_cons]
      simp only [List.length_cons]
      have harith : m + (rest.length + 1) = (m + 1) + rest.length := by omega
      rw [harith]
      exact this.2

theorem lastBH_take_drop (l : List AuditRow) (n : ℕ) (d : HashVal) :
    lastBH (l.drop n) (lastBH (l.take n) d) = lastBH l d := by
  induction l generalizing n d with
  | nil => simp [lastBH]
  | cons x xs ih =>
      cases n with
      | zero => simp [lastBH]
      | succ n =>
          simp only [List.drop_succ_cons, List.take_succ_cons, lastBH_cons]
          exact ih n x.block_hash

end Tco

namespace Tco

theorem verify_tampered_errors {trail : List AuditRow}
    (hchain : chainOk HashVal.genesis 1 trail)
    (f : AuditRow → AuditRow) {k a b : ℕ}
    (hf : ∀ r, r.block_number ≠ k → f r = r)
    (hfbn : ∀ r, (f r).block_number = r.block_number)
    (hfbh : ∀ r, (f r).block_hash = r.block_hash)
    (hk1 : 1 ≤ k)
    (ha1 : 1 ≤ a) (hak : a ≤ k) (hkb : k ≤ b)
    (hget : k - 1 < trail.length)
    (te : ℕ) (lbh : HashVal) :
    (verify_chain ⟨trail.map f, te, lbh⟩ a (some b)).errors
      = (if a < k ∧ (f (trail.get ⟨k - 1, hget⟩)).previous_hash
            ≠ (trail.get ⟨k - 1, hget⟩).previous_hash then [brokenErr k] else [])
        ++ (if row_expected_hash (f (trail.get ⟨k - 1, hget⟩))
              ≠ (trail.get ⟨k - 1, hget⟩).block_hash then [invalidErr k] else []) := by
  have hnum : numbered 1 trail := chainOk_numbered hchain
  have hnum' : numbered 1 (trail.map f) := numbered_map hnum f hfbn
  set rk := trail.get ⟨k - 1, hget⟩ with hrkdef
  -- decomposition of the untampered trail at index k-1
  have hdec0 : trail = trail.take (k - 1) ++ rk :: trail.drop k := by
    have := @numbered_map_decompose k id (fun r _ => rfl) trail 1 (k - 1)
      hnum (by omega) hget
    rw [show k - 1 + 1 = k from by omega] at this
    simpa using this
  -- decomposition of the tampered trail at index k-1
  have hdec : trail.map f = trail.take (k - 1) ++ f rk :: trail.drop k := by
    have := @numbered_map_decompose k f hf trail 1 (k - 1) hnum (by omega) hget
    rw [show k - 1 + 1 = k from by omega] at this
    exact this
  have hT1len : (trail.take (k - 1)).length = k - 1 := by
    rw [List.length_take]; omega
  -- chain facts at the decomposition point
  have helim := chainOk_append_elim (show chainOk HashVal.genesis 1
    (trail.take (k - 1) ++ rk :: trail.drop k) from by rw [← hdec0]; exact hchain)
  have hT1chain : chainOk HashVal.genesis 1 (trail.take (k - 1)) := helim.1
  have hrkchain : chainOk (lastBH (trail.take (k - 1)) HashVal.genesis)
      (1 + (k - 1)) (rk :: trail.drop k) := by
    have := helim.2
    rwa [hT1len] at this
  simp only [chainOk] at hrkchain
  obtain ⟨hrkprev, hrkbn0, hrkbh, hT2chain⟩ := hrkchain
  have hrkbn : rk.block_number = k := by omega
  -- the filtered, sorted query
  have hfilter : (trail.map f).filter
      (fun r => a ≤ r.block_number && r.block_number ≤ b)
      = ((trail.map f).drop (a - 1)).take (b + 1 - a) := by
    have := numbered_filter_range hnum' a b
    rwa [show max a 1 = a from by omega] at this
  have hdrop : (trail.map f).drop (a - 1)
      = (trail.take (k - 1)).drop (a - 1) ++ f rk :: trail.drop k := by
    rw [hdec, List.drop_append_eq_append_drop, hT1len,
      show a - 1 - (k - 1) = 0 from by omega, List.drop_zero]
  have hprelen : ((trail.take (k - 1)).drop (a - 1)).length = k - a := by
    rw [List.length_drop, hT1len]; omega
  have htake : ((trail.map f).drop (a - 1)).take (b + 1 - a)
      = (trail.take (k - 1)).drop (a - 1)
        ++ f rk :: (trail.drop k).take (b - k) := by
    rw [hdrop, List.take_append_eq_append_take, hprelen,
      List.take_of_length_le (by rw [hprelen]; omega),
      show b + 1 - a - (k - a) = (b - k) + 1 from by omega, List.take_succ_cons]
  have hseg : (trail.map f).filter
      (fun r => a ≤ r.block_number && r.block_number ≤ b)
      = (trail.take (k - 1)).drop (a - 1)
        ++ f rk :: (trail.drop k).take (b - k) := by
    rw [hfilter, htake]
  -- sortedness of the query result
  have hpw : ((trail.map f).filter
      (fun r => a ≤ r.block_number && r.block_number ≤ b)).Pairwise
      (fun x y => decide (x.block_number ≤ y.block_number) = true) := by
    refine List.Pairwise.imp ?_
      (List.Pairwise.sublist (List.filter_sublist _) (numbered_pairwise hnum'))
    intro x y hxy
    exact decide_eq_true hxy
  have hms : ((trail.map f).filter
      (fun r => a ≤ r.block_number && r.block_number ≤ b)).mergeSort
        (fun x y => decide (x.block_number ≤ y.block_number))
      = (trail.map f).filter
        (fun r => a ≤ r.block_number && r.block_number ≤ b) :=
    List.mergeSort_of_sorted hpw
  -- the verification run on the decomposed segment
  have hprechain : chainOk (lastBH ((trail.take (k - 1)).take (a - 1)) HashVal.genesis)
      a ((trail.take (k - 1)).drop (a - 1)) := by
    have := chainOk_drop hT1chain (a - 1)
    rwa [show 1 + (a - 1) = a from by omega] at this
  have hloop_pre : verifyLoop none ((trail.take (k - 1)).drop (a - 1)) = [] :=
    verifyLoop_none_of_chainOk hprechain
  have hpostchain : chainOk rk.block_hash (1 + (k - 1) + 1)
      ((trail.drop k).take (b - k)) := chainOk_take hT2chain _
  have hloop_post : verifyLoop (some rk.block_hash) ((trail.drop k).take (b - k)) = [] :=
    verifyLoop_some_of_chainOk hpostchain
  have hfbnk : (f rk).block_number = k := by rw [hfbn]; exact hrkbn
  simp only [verify_chain]
  rw [hms, hseg, verifyLoop_append]
  rw [hloop_pre, List.nil_append]
  by_cases hlt : a < k
  · have hne : (trail.take (k - 1)).drop (a - 1) ≠ [] := by
      intro he
      have h0 := hprelen
      rw [he] at h0
      simp at h0
      omega
    rw [lastOpt_eq_some hne none
      (lastBH ((trail.take (k - 1)).take (a - 1)) HashVal.genesis)]
    rw [lastBH_take_drop, ← hrkprev]
    simp only [verifyLoop]
    rw [hfbh, hloop_post]
    simp only [List.append_nil, hfbnk, brokenErr, invalidErr]
    have hiff : ((f rk).previous_hash ≠ rk.previous_hash)
        ↔ (a < k ∧ (f rk).previous_hash ≠ rk.previous_hash) := by
      constructor
      · exact fun h => ⟨hlt, h⟩
      · exact fun h => h.2
    rw [if_congr hiff rfl rfl]
  · have hnil : (trail.take (k - 1)).drop (a - 1) = [] := by
      have h0 : ((trail.take (k - 1)).drop (a - 1)).length = 0 := by
        rw [hprelen]; omega
      exact List.length_eq_zero.mp h0
    rw [hnil]
    simp only [lastOpt_nil, verifyLoop]
    rw [hfbh, hloop_post]
    simp only [List.append_nil, List.nil_append, hfbnk, brokenErr, invalidErr]
    rw [if_neg (show ¬(a < k ∧ ¬(f rk).previous_hash = rk.previous_hash) from
      fun hc => hlt hc.1)]
    simp

end Tco



namespace Tco

theorem chainOk_consecutive {rows : List AuditRow} {p : HashVal} {n : ℕ}
    (h : chainOk p n rows) :
    ∀ i (hi : i + 1 < rows.length),
      (rows.get ⟨i + 1, hi⟩).previous_hash
        = (rows.get ⟨i, Nat.lt_of_succ_lt hi⟩).block_hash := by
  induction rows generalizing p n with
  | nil => intro i hi; cases hi
  | cons x rest ih =>
      intro i hi
      simp only [chainOk] at h
      obtain ⟨h1, h2, h3, h4⟩ := h
      cases i with
      | zero =>
          cases rest with
          | nil => simp at hi
          | cons y ys =>
              simp only [chainOk] at h4
              simpa using h4.1
      | succ i =>
          simp only [List.get_cons_succ]
          exact ih h4 i (by simpa using hi)

theorem verify_chain_clean {trail : List AuditRow}
    (hchain : chainOk HashVal.genesis 1 trail) (te : ℕ) (lbh : HashVal) :
    verify_chain ⟨trail, te, lbh⟩ 1 (some trail.length)
      = { verified := true, blocks_checked := trail.length, errors := [] } := by
  have hnum : numbered 1 trail := chainOk_numbered hchain
  have hfilter : trail.filter
      (fun r => 1 ≤ r.block_number && r.block_number ≤ trail.length)
      = trail := by
    have := numbered_filter_range hnum 1 trail.length
    rw [show max 1 1 = 1 from rfl, show (1 : ℕ) - 1 = 0 from rfl, List.drop_zero,
      show trail.length + 1 - 1 = trail.length from by omega, List.take_length] at this
    exact this
  have hpw : (trail.filter
      (fun r => 1 ≤ r.block_number && r.block_number ≤ trail.length)).Pairwise
      (fun x y => decide (x.block_number ≤ y.block_number) = true) := by
    refine List.Pairwise.imp ?_
      (List.Pairwise.sublist (List.filter_sublist _) (numbered_pairwise hnum))
    intro x y hxy
    exact decide_eq_true hxy
  have hms := List.mergeSort_of_sorted hpw
  simp only [verify_chain]
  rw [hms, hfilter, verifyLoop_none_of_chainOk hchain]
  simp

end Tco

/-- Claim C9: for every input, `GovernanceOrchestrator.orchestrate_decision`
in `cgc_loop.py` raises and never returns a decision: its first stage
call `PerceptionAnalysisNode.analyze` evaluates
`(datetime.now() - start_time).total_microseconds()`, which does not
exist on a timedelta, so the `AttributeError` propagates before
synthesis and before any ledger append (the returned TCO state is the
unchanged input state). -/
theorem C9_orchestrate_always_raises (tco : Tco.TCOState)
    (decision_id module action : String) (input_data : PyVal)
    (context : Option PyVal) :
    Loop.orchestrate_decision tco decision_id module action input_data context
        = (tco, Except.error tdError) ∧
      Pan.analyze input_data context = Except.error tdError :=
  ⟨rfl, rfl⟩

/-- Claim C10: `TraceabilityOversight.log_decision` raises at its
processing-time computation, but only after the new block has been
inserted into the audit-trail store and `last_block_hash` and
`total_entries` have been advanced — the caller receives the error, yet
the ledger state has changed. -/
theorem C10_log_decision_mutates_before_raising (st : Tco.TCOState)
    (inp : Tco.LogInput) :
    (Tco.log_decision st inp).2 = Except.error tdError ∧
      (Tco.log_decision st inp).1.total_entries = st.total_entries + 1 ∧
      (Tco.log_decision st inp).1.last_block_hash = (Tco.newRow st inp).block_hash ∧
      ((∀ r ∈ st.audit_trail, r.block_hash ≠ (Tco.newRow st inp).block_hash) →
        (Tco.log_decision st inp).1.audit_trail
          = st.audit_trail ++ [Tco.newRow st inp]) := by
  refine ⟨rfl, ?_, rfl, ?_⟩
  · simp only [Tco.log_decision, Tco.store_audit_entry]
    split <;> rfl
  · intro hfresh
    have hany : (st.audit_trail.any
        (fun r => r.block_hash == (Tco.newRow st inp).block_hash)) = false := by
      simp only [List.any_eq_false, beq_iff_eq]
      exact hfresh
    simp [Tco.log_decision, Tco.store_audit_entry, hany]

/-- Witness for C10: one append to a fresh ledger is the error-return,
yet the block is stored. -/
theorem C10_log_decision_mutates_before_raising_witness :
    (∀ r ∈ Tco.initState.audit_trail,
        r.block_hash ≠ (Tco.newRow Tco.initState
          ⟨"D1", "m", "a", "t0", PyVal.none, PyVal.none⟩).block_hash) ∧
      (Tco.log_decision Tco.initState
          ⟨"D1", "m", "a", "t0", PyVal.none, PyVal.none⟩).1.audit_trail
        = Tco.initState.audit_trail ++ [Tco.newRow Tco.initState
            ⟨"D1", "m", "a", "t0", PyVal.none, PyVal.none⟩] :=
  ⟨fun r hr => absurd hr (by simp [Tco.initState]),
    (C10_log_decision_mutates_before_raising Tco.initState
        ⟨"D1", "m", "a", "t0", PyVal.none, PyVal.none⟩).2.2.2
      (fun r hr => absurd hr (by simp [Tco.initState]))⟩

/-- Claim C6 as stated is false for the `core_engine.py` in-memory
ledger it cites: the first-ever `add_entry` on an empty ledger uses the
EMPTY string as `prev_hash` (line 87), not a non-empty constant. -/
theorem C6_genesis_counterexample :
    ((CE.add_entry [] "D1" "payload" "t0").2).prev_hash = CE.CEHash.emptyStr ∧
      ((CE.add_entry [] "D1" "payload" "t0").2).prev_hash.isEmptyString = true :=
  ⟨rfl, rfl⟩

/-- Claim C6 (amended): in `tco_module.py` the first-ever append to an
empty ledger uses the fixed non-empty constant
`sha256(b'OLYMPUSMONT_GENESIS').hexdigest()[:32]` (embedded as
`HashVal.genesis`) as the block's `previous_hash`, and verifying the
range containing only block 1 succeeds; the `core_engine.py` in-memory
stub instead uses the empty string (see the counterexample). -/
theorem C6_genesis_amended (inp : Tco.LogInput) :
    Tco.initState.last_block_hash = Tco.HashVal.genesis ∧
      (Tco.newRow Tco.initState inp).previous_hash = Tco.HashVal.genesis ∧
      (Tco.verify_chain (Tco.applyLogs Tco.initState [inp]) 1 (some 1)).verified
          = true ∧
      (Tco.verify_chain (Tco.applyLogs Tco.initState [inp]) 1 (some 1)).blocks_checked
          = 1 := by
  have hInv := (Tco.applyLogs_Inv [inp] Tco.initState Tco.initState_Inv)
  have hlen : (Tco.applyLogs Tco.initState [inp]).audit_trail.length = 1 := by
    rw [hInv.2]
    rfl
  have hclean := Tco.verify_chain_clean hInv.1.1
    (Tco.applyLogs Tco.initState [inp]).total_entries
    (Tco.applyLogs Tco.initState [inp]).last_block_hash
  rw [show (⟨(Tco.applyLogs Tco.initState [inp]).audit_trail,
      (Tco.applyLogs Tco.initState [inp]).total_entries,
      (Tco.applyLogs Tco.initState [inp]).last_block_hash⟩ : Tco.TCOState)
    = Tco.applyLogs Tco.initState [inp] from rfl, hlen] at hclean
  refine ⟨rfl, rfl, ?_, ?_⟩
  · rw [hclean]
  · rw [hclean]

/-- If the integer `c` is below `x * 1000 + 1/2`, then `c / 1000` is a
lower bound for `round(x, 3)`. -/
theorem pyRound3_ge {x : ℚ} (c : ℤ) (h : (c : ℚ) ≤ x * 1000 + 1 / 2) :
    (c : ℚ) / 1000 ≤ pyRound x 3 := by
  unfold pyRound
  have hfloor : c ≤ ⌊x * 10 ^ 3 + 1 / 2⌋ := by
    rw [Int.le_floor]
    norm_num
    linarith
  have hcast : (c : ℚ) ≤ (⌊x * 10 ^ 3 + 1 / 2⌋ : ℚ) := by
    exact_mod_cast hfloor
  have h1000 : (0 : ℚ) < 10 ^ 3 := by norm_num
  have := (div_le_div_iff_of_pos_right h1000).mpr hcast
  calc (c : ℚ) / 1000 = (c : ℚ) / 10 ^ 3 := by norm_num
    _ ≤ (⌊x * 10 ^ 3 + 1 / 2⌋ : ℚ) / 10 ^ 3 := this

/-- Claim C7 rests on the perception stage returning normally; the code
instead raises on every input at the `total_microseconds` call
(`pan_module.py` line 57), so this theorem records the actual behavior:
`analyze` returns the `AttributeError` for every input, while the
quality score it computed just before failing is `0.5` on the empty
mapping and at least `0.5` on every input mapping. -/
theorem C7_perception_behavior :
    (∀ (input_data : PyVal) (context : Option PyVal),
        Pan.analyze input_data context = Except.error tdError) ∧
      Pan.assess_data_quality (PyVal.dict []) = 0.5 ∧
      (∀ xs : List (String × PyVal),
        0.5 ≤ Pan.assess_data_quality (PyVal.dict xs)) := by
  refine ⟨fun _ _ => rfl, ?_, ?_⟩
  · unfold Pan.assess_data_quality
    norm_num [pyFalsy, pyRound]
  · intro xs
    cases xs with
    | nil =>
        unfold Pan.assess_data_quality
        norm_num [pyFalsy, pyRound]
    | cons kv rest =>
        unfold Pan.assess_data_quality
        have hfalsy : pyFalsy (PyVal.dict (kv :: rest)) = false := by
          simp [pyFalsy]
        simp only [hfalsy, Bool.false_eq_true, if_false]
        have hpos : 0 < (kv :: rest).length := by simp
        simp only [if_pos hpos]
        have hle : ((kv :: rest).filter (fun kv => pyFalsy kv.2)).length
            ≤ (kv :: rest).length := List.length_filter_le _ _
        have htpos : (0 : ℚ) < ((kv :: rest).length : ℚ) := by
          exact_mod_cast hpos
        have hdiv : (((kv :: rest).filter (fun kv => pyFalsy kv.2)).length : ℚ)
            / ((kv :: rest).length : ℚ) ≤ 1 := by
          rw [div_le_one htpos]
          exact_mod_cast hle
      
        have hq : (0.7 : ℚ) ≤ 1 * 1 *
            (1 - (((kv :: rest).filter (fun kv => pyFalsy kv.2)).length : ℚ)
              / ((kv :: rest).length : ℚ) * 0.3) := by
          have hnn : (0 : ℚ) ≤ (((kv :: rest).filter (fun kv => pyFalsy kv.2)).length : ℚ)
              / ((kv :: rest).length : ℚ) := by positivity
          nlinarith
        have harg : ((500 : ℤ) : ℚ) ≤ 1 * 1 *
            (1 - (((kv :: rest).filter (fun kv => pyFalsy kv.2)).length : ℚ)
              / ((kv :: rest).length : ℚ) * 0.3) * 1000 + 1 / 2 := by
          push_cast
          nlinarith
        have := pyRound3_ge 500 harg
        calc (0.5 : ℚ) = (500 : ℤ) / 1000 := by norm_num
          _ ≤ _ := this

/-- Claim C3 as stated is false: the decision's stored `confidence` is
the weighted average ROUNDED to 3 decimals (`round(confidence, 3)`,
`cgc_loop.py` line 245), so for stage scores `0.857, 0.9, 0.9, 80` the
stored value is `0.871`, strictly below the exact weighted average
`0.8714` — so the stored confidence is not equal to the claimed
formula. -/
theorem C3_confidence_counterexample :
    (Loop.synthesize_decision ⟨0.857⟩ ⟨0.9, true, []⟩ ⟨0.9, some "success"⟩
        ⟨80, []⟩).confidence
      < 0.857 * 0.20 + 0.9 * 0.30 + 0.9 * 0.30 + (80 : ℚ) / 100 * 0.20 := by
  unfold Loop.synthesize_decision
  simp only
  norm_num [pyRound]

/-- Claim C3 (amended): the decision's `confidence` field equals the
weighted average `0.20·dataQuality + 0.30·ethicalScore +
0.30·predictionConfidence + 0.20·(advisoryQuality/100)` rounded to 3
decimals, and `approved` is true exactly when the UNROUNDED weighted
average is `≥ 0.85`, the ethical stage's `approved` flag is true, the
ethical score is `≥ 0.85`, and the predicted outcome is not
`requires_review`; the ethical veto and the prediction veto are each
alone sufficient to force `approved = false`. -/
theorem C3_synthesis_amended (p : Loop.PerceptionR) (e : Loop.EthicalR)
    (pr : Loop.PredictionR) (ad : Loop.AdvisoryR) :
    (Loop.synthesize_decision p e pr ad).confidence
        = pyRound (Loop.raw_confidence p e pr ad) 3 ∧
      ((Loop.synthesize_decision p e pr ad).approved = true ↔
        (0.85 ≤ Loop.raw_confidence p e pr ad ∧ e.approved = true ∧
          0.85 ≤ e.overall_score ∧
          pr.outcome_predicted ≠ some "requires_review")) ∧
      (e.approved = false →
        (Loop.synthesize_decision p e pr ad).approved = false) ∧
      (pr.outcome_predicted = some "requires_review" →
        (Loop.synthesize_decision p e pr ad).approved = false) := by
  refine ⟨?_, ?_, ?_, ?_⟩
  · unfold Loop.synthesize_decision Loop.raw_confidence
    simp only
  · unfold Loop.synthesize_decision Loop.raw_confidence
    simp only [Bool.and_eq_true, decide_eq_true_eq, Bool.not_eq_true',
      beq_eq_false_iff_ne, ne_eq]
    constructor
    · rintro ⟨⟨⟨h1, h2⟩, h3⟩, h4⟩
      exact ⟨by linarith, h2, h3, h4⟩
    · rintro ⟨h1, h2, h3, h4⟩
      exact ⟨⟨⟨by linarith, h2⟩, h3⟩, h4⟩
  · intro he
    unfold Loop.synthesize_decision
    simp only [he, Bool.and_false, Bool.false_and]
  · intro hpred
    unfold Loop.synthesize_decision
    simp only [hpred]
    simp

/-- Witness for C3 (amended): the ethical veto rejects a
maximum-confidence decision. -/
theorem C3_synthesis_amended_witness :
    Loop.raw_confidence ⟨1⟩ ⟨1, false, []⟩ ⟨1, some "success"⟩ ⟨100, []⟩ = 1 ∧
      (Loop.synthesize_decision ⟨1⟩ ⟨1, false, []⟩ ⟨1, some "success"⟩
          ⟨100, []⟩).approved = false :=
  ⟨by norm_num [Loop.raw_confidence],
    (C3_synthesis_amended ⟨1⟩ ⟨1, false, []⟩ ⟨1, some "success"⟩ ⟨100, []⟩).2.2.1 rfl⟩

/-- Claim C5 as stated is false: with short input data containing a
complexity marker and outcome probability `0.9`, TWO risk factors are
present (data incompleteness, medium; complexity, low) and none is
severe, yet the overall level is `LOW`, not the claimed `MEDIUM` — the
code requires at least two MEDIUM-severity factors, not two factors. -/
theorem C5_risk_level_counterexample :
    (Pfm.assess_risks "act" (PyVal.dict [("a", PyVal.str "complex")])
        ⟨"success", 0.9, "baseline_model"⟩).factors.length = 2 ∧
      (∀ f ∈ (Pfm.assess_risks "act" (PyVal.dict [("a", PyVal.str "complex")])
          ⟨"success", 0.9, "baseline_model"⟩).factors, f.severity ≠ "high") ∧
      (Pfm.assess_risks "act" (PyVal.dict [("a", PyVal.str "complex")])
          ⟨"success", 0.9, "baseline_model"⟩).overall ≠ "MEDIUM" := by
  have hprob : ¬((⟨"success", 0.9, "baseline_model"⟩ : Pfm.Outcome).probability
      < 0.85) := by norm_num
  unfold Pfm.assess_risks
  rw [if_neg hprob]
  refine ⟨?_, ?_, ?_⟩ <;> simp +decide [pyStr, strLower, pyContains]

/-- Claim C5 (amended): the overall risk level is `HIGH` exactly when a
factor is individually severe — which happens exactly when the outcome
probability is below `0.70`; else `MEDIUM` exactly when at least two
MEDIUM-severity factors are present — which happens exactly when the
rendered data is short (`len(str(data)) < 100`) and the probability is
in `[0.70, 0.85)` (the complexity factor is always low-severity and
never counts); else `LOW`. -/
theorem C5_risk_level_amended (action : String) (data : PyVal)
    (outcome : Pfm.Outcome) :
    ((Pfm.assess_risks action data outcome).overall = "HIGH"
        ↔ outcome.probability < 0.70) ∧
      ((Pfm.assess_risks action data outcome).overall = "MEDIUM"
        ↔ (0.70 ≤ outcome.probability ∧ outcome.probability < 0.85 ∧
            (pyStr data).length < 100)) ∧
      ((Pfm.assess_risks action data outcome).overall = "LOW"
        ↔ (0.70 ≤ outcome.probability ∧
            (0.85 ≤ outcome.probability ∨ ¬(pyStr data).length < 100))) := by
  unfold Pfm.assess_risks
  split_ifs with h1 h2 h3 h4 <;> simp_all +decide <;> linarith

namespace Ecm

theorem eval_transparency_bounds (action : String) (data : PyVal) :
    0.95 ≤ eval_transparency action data 0.95
      ∧ eval_transparency action data 0.95 ≤ 1 := by
  unfold eval_transparency
  split_ifs <;> constructor <;> norm_num [min_def] <;> split_ifs <;> norm_num

theorem eval_fairness_bounds (action : String) (data : PyVal) :
    0.93 * (0.95 * 0.95 * 0.95) ≤ eval_fairness action data 0.93
      ∧ eval_fairness action data 0.93 ≤ 0.93 := by
  unfold eval_fairness
  simp only [List.foldl]
  split_ifs <;> constructor <;> norm_num

theorem eval_privacy_bounds (action : String) (data : PyVal) :
    0.96 * 0.92 ≤ eval_privacy action data 0.96
      ∧ eval_privacy action data 0.96 ≤ 0.96 := by
  unfold eval_privacy
  dsimp only
  split_ifs <;> constructor <;> norm_num

theorem eval_security_bounds (action : String) (data : PyVal) :
    0.98 ≤ eval_security action data 0.98
      ∧ eval_security action data 0.98 ≤ 1 := by
  unfold eval_security
  dsimp only
  split_ifs <;> constructor <;> norm_num [min_def] <;> split_ifs <;> norm_num

theorem eval_compliance_bounds (action : String) (data : PyVal) :
    0.94 ≤ eval_compliance action data 0.94
      ∧ eval_compliance action data 0.94 ≤ 1 := by
  unfold eval_compliance
  dsimp only
  split_ifs <;> constructor <;> norm_num [min_def] <;> split_ifs <;> norm_num

end Ecm

namespace Ecm

theorem evaluate_transparency_eq (action : String) (data : PyVal) :
    evaluate_framework "transparency" action data
      = eval_transparency action data 0.95 := by
  simp +decide [evaluate_framework, frameworks, List.lookup]

theorem evaluate_fairness_eq (action : String) (data : PyVal) :
    evaluate_framework "fairness" action data
      = eval_fairness action data 0.93 := by
  simp +decide [evaluate_framework, frameworks, List.lookup]

theorem evaluate_accountability_eq (action : String) (data : PyVal) :
    evaluate_framework "accountability" action data = 0.97 := by
  simp +decide [evaluate_framework, frameworks, List.lookup]

theorem evaluate_privacy_eq (action : String) (data : PyVal) :
    evaluate_framework "privacy" action data
      = eval_privacy action data 0.96 := by
  simp +decide [evaluate_framework, frameworks, List.lookup]

theorem evaluate_security_eq (action : String) (data : PyVal) :
    evaluate_framework "security" action data
      = eval_security action data 0.98 := by
  simp +decide [evaluate_framework, frameworks, List.lookup]

theorem evaluate_compliance_eq (action : String) (data : PyVal) :
    evaluate_framework "compliance" action data
      = eval_compliance action data 0.94 := by
  simp +decide [evaluate_framework, frameworks, List.lookup]

end Ecm

namespace Ecm

theorem overall_score_ge (action : String) (data : PyVal) :
    0.85 ≤ overall_score action data ∧
      (∀ fs ∈ framework_scores action data, 0.75 ≤ fs.2) := by
  have ht := eval_transparency_bounds action data
  have hf := eval_fairness_bounds action data
  have hp := eval_privacy_bounds action data
  have hs := eval_security_bounds action data
  have hc := eval_compliance_bounds action data
  have hfs : framework_scores action data
      = [("transparency", eval_transparency action data 0.95),
         ("fairness", eval_fairness action data 0.93),
         ("accountability", (0.97 : ℚ)),
         ("privacy", eval_privacy action data 0.96),
         ("security", eval_security action data 0.98),
         ("compliance", eval_compliance action data 0.94)] := by
    simp only [framework_scores, frameworks, List.map_cons, List.map_nil,
      evaluate_transparency_eq, evaluate_fairness_eq, evaluate_accountability_eq,
      evaluate_privacy_eq, evaluate_security_eq, evaluate_compliance_eq]
  constructor
  · unfold overall_score
    rw [hfs]
    simp only [List.map_cons, List.map_nil, List.sum_cons, List.sum_nil,
      List.length_cons, List.length_nil]
    norm_num
    linarith [ht.1, hf.1, hp.1, hs.1, hc.1]
  · intro fs hmem
    rw [hfs] at hmem
    simp only [List.mem_cons, List.not_mem_nil, or_false] at hmem
    rcases hmem with rfl | rfl | rfl | rfl | rfl | rfl <;>
      simp only <;> linarith [ht.1, hf.1, hp.1, hs.1, hc.1]

theorem concerns_medium_of_bounds (scores : List (String × ℚ))
    (h : ∀ fs ∈ scores, (0.75 : ℚ) ≤ fs.2) :
    ∀ c ∈ identify_concerns scores, c.severity = "medium" := by
  induction scores with
  | nil => intro c hc; cases hc
  | cons fs rest ih =>
      intro c hc
      have hfs : (0.75 : ℚ) ≤ fs.2 := h fs (by simp)
      have hrest : ∀ x ∈ rest, (0.75 : ℚ) ≤ x.2 :=
        fun x hx => h x (by simp [hx])
      simp only [identify_concerns, List.filterMap_cons] at hc
      by_cases h85 : fs.2 < 0.85
      · rw [if_pos h85] at hc
        simp only [List.mem_cons] at hc
        rcases hc with rfl | hc
        · simp only
          rw [if_neg (by linarith)]
        · exact ih hrest c hc
      · rw [if_neg h85] at hc
        exact ih hrest c hc

theorem calibrate_approved_true (action : String) (data : PyVal) :
    calibrate_approved action data = true := by
  have hov := overall_score_ge action data
  have hmed := concerns_medium_of_bounds (framework_scores action data) hov.2
  unfold calibrate_approved
  have hfilter : (identify_concerns (framework_scores action data)).filter
      (fun c => c.severity == "high") = [] := by
    rw [List.filter_eq_nil]
    intro c hc
    rw [hmed c hc]
    decide
  rw [hfilter]
  simp only [List.length_nil, Bool.and_eq_true, decide_eq_true_eq]
  exact ⟨hov.1, rfl⟩

end Ecm

/-- Claim C4 as stated is false: when the rendered data contains two of
the three bias indicators, the fairness score is `0.93·0.95·0.95 ≈
0.839`, strictly below the claimed lower bound `0.92·baseline =
0.92·0.93 = 0.8556` — the three 5% fairness reductions compound beyond
8%. -/
theorem C4_framework_bound_counterexample :
    Ecm.evaluate_framework "fairness" "act"
        (PyVal.dict [("a", PyVal.str "bias unfair")])
      < 0.92 * 0.93 := by
  rw [Ecm.evaluate_fairness_eq]
  unfold Ecm.eval_fairness
  simp +decide [pyStr, strLower, pyContains]
  norm_num

/-- Claim C4 (amended): for every framework, action and input data, the
framework score lies between `0.95³·baseline ≈ 0.857·baseline` and
`min(1.08·baseline, 1)`; the original `0.92·baseline` lower bound holds
for every framework except fairness, whose three compounding 5%
reductions can reach `0.95³·baseline` (attained when all three bias
indicators are present). -/
theorem C4_framework_bounds_amended (action : String) (data : PyVal) :
    ∀ fb ∈ Ecm.frameworks,
      0.95 * 0.95 * 0.95 * fb.2 ≤ Ecm.evaluate_framework fb.1 action data ∧
        Ecm.evaluate_framework fb.1 action data ≤ min (1.08 * fb.2) 1 := by
  intro fb hfb
  have ht := Ecm.eval_transparency_bounds action data
  have hf := Ecm.eval_fairness_bounds action data
  have hp := Ecm.eval_privacy_bounds action data
  have hs := Ecm.eval_security_bounds action data
  have hc := Ecm.eval_compliance_bounds action data
  simp only [Ecm.frameworks, List.mem_cons, List.not_mem_nil, or_false] at hfb
  rcases hfb with rfl | rfl | rfl | rfl | rfl | rfl <;> simp only
  · rw [Ecm.evaluate_transparency_eq]
    rw [le_min_iff]
    refine ⟨by linarith [ht.1], by linarith [ht.2], ht.2⟩
  · rw [Ecm.evaluate_fairness_eq]
    rw [le_min_iff]
    refine ⟨by linarith [hf.1], by linarith [hf.2], by linarith [hf.2]⟩
  · rw [Ecm.evaluate_accountability_eq]
    rw [le_min_iff]
    norm_num
  · rw [Ecm.evaluate_privacy_eq]
    rw [le_min_iff]
    refine ⟨by linarith [hp.1], by linarith [hp.2], by linarith [hp.2]⟩
  · rw [Ecm.evaluate_security_eq]
    rw [le_min_iff]
    refine ⟨by linarith [hs.1], by linarith [hs.2], hs.2⟩
  · rw [Ecm.evaluate_compliance_eq]
    rw [le_min_iff]
    refine ⟨by linarith [hc.1], by linarith [hc.2], hc.2⟩

/-- Witness for C4 (amended): the fairness framework at a concrete
input satisfies the amended bounds. -/
theorem C4_framework_bounds_amended_witness :
    ("fairness", (0.93 : ℚ)) ∈ Ecm.frameworks ∧
      (0.95 * 0.95 * 0.95 * (0.93 : ℚ)
          ≤ Ecm.evaluate_framework "fairness" "act" PyVal.none ∧
        Ecm.evaluate_framework "fairness" "act" PyVal.none
          ≤ min (1.08 * (0.93 : ℚ)) 1) :=
  ⟨by simp [Ecm.frameworks],
    C4_framework_bounds_amended "act" PyVal.none ("fairness", (0.93 : ℚ))
      (by simp [Ecm.frameworks])⟩

/-- Claim C8 as stated is false: with two bias indicators in the data
the fairness score drops to `0.839 < 0.85`, so the concerns list
computed by `calibrate` is NOT empty (the claimed per-framework lower
bounds are wrong for fairness: `0.93·0.95³ ≈ 0.797`, not `≈ 0.857`);
moreover `calibrate` itself never returns — it raises at its
processing-time computation. -/
theorem C8_concerns_counterexample :
    Ecm.identify_concerns (Ecm.framework_scores "act"
        (PyVal.dict [("a", PyVal.str "bias unfair")])) ≠ [] ∧
      Ecm.calibrate "act" (PyVal.dict [("a", PyVal.str "bias unfair")]) none
        = Except.error tdError := by
  constructor
  · unfold Ecm.identify_concerns Ecm.framework_scores Ecm.frameworks
      Ecm.evaluate_framework
    simp +decide [Ecm.eval_transparency, Ecm.eval_fairness, Ecm.eval_privacy,
      Ecm.eval_security, Ecm.eval_compliance, Ecm.pyHasKey, pyStr, strLower,
      pyContains, List.lookup]
    norm_num
  · rfl

/-- Claim C8 (amended): for every action and input data, no concern ever
reaches `high` severity (every framework score stays at or above
`0.93·0.95³ ≈ 0.797 > 0.75`), the overall mean never falls below `0.85`
(it is at least `≈ 0.920`), and therefore the approval expression of
`ecm_module.py` line 75 always evaluates to true — the ethical veto can
never fire; the concerns list, however, need not be empty (fairness can
fall to `≈ 0.797` and privacy to `0.8832`, both producing
medium-severity concerns), and `calibrate` itself raises before
returning any of this (see C9). -/
theorem C8_ethics_never_vetoes_amended (action : String) (data : PyVal)
    (context : Option PyVal) :
    (∀ c ∈ Ecm.identify_concerns (Ecm.framework_scores action data),
        c.severity = "medium") ∧
      0.85 ≤ Ecm.overall_score action data ∧
      Ecm.calibrate_approved action data = true ∧
      Ecm.calibrate action data context = Except.error tdError := by
  have hov := Ecm.overall_score_ge action data
  exact ⟨Ecm.concerns_medium_of_bounds _ hov.2, hov.1,
    Ecm.calibrate_approved_true action data, rfl⟩

/-- Witness for C8 (amended): at a concrete input the fairness concern
exists, is medium-severity, and the approval expression still holds. -/
theorem C8_ethics_never_vetoes_amended_witness :
    ({ framework := "fairness", score := 0.839, severity := "medium",
        message := "Fairness score below threshold" } : Ecm.Concern)
        ∈ Ecm.identify_concerns (Ecm.framework_scores "act"
          (PyVal.dict [("a", PyVal.str "bias unfair")])) ∧
      ({ framework := "fairness", score := 0.839, severity := "medium",
          message := "Fairness score below threshold" } : Ecm.Concern).severity
        = "medium" ∧
      Ecm.calibrate_approved "act"
        (PyVal.dict [("a", PyVal.str "bias unfair")]) = true := by
  have hmem : ({ framework := "fairness", score := 0.839, severity := "medium",
                 message := "Fairness score below threshold" } : Ecm.Concern)
      ∈ Ecm.identify_concerns (Ecm.framework_scores "act"
        (PyVal.dict [("a", PyVal.str "bias unfair")])) := by
    unfold Ecm.identify_concerns Ecm.framework_scores Ecm.frameworks
      Ecm.evaluate_framework
    simp +decide [Ecm.eval_transparency, Ecm.eval_fairness, Ecm.eval_privacy,
      Ecm.eval_security, Ecm.eval_compliance, Ecm.pyHasKey, pyStr, strLower,
      pyContains, List.lookup, Ecm.capitalizeStr, pyRound]
    norm_num
  exact ⟨hmem,
    (C8_ethics_never_vetoes_amended "act"
        (PyVal.dict [("a", PyVal.str "bias unfair")]) none).1 _ hmem,
    (C8_ethics_never_vetoes_amended "act"
        (PyVal.dict [("a", PyVal.str "bias unfair")]) none).2.2.1⟩

/-- Claim C1: after N sequential `log_decision` appends on a freshly
initialized ledger, `verify_chain(1, N)` reports `verified = true` and
`blocks_checked = N`, and every stored block `n > 1` has
`previous_hash` equal to block `n-1`'s `block_hash` (invariant I1).
(Each `log_decision` call raises AFTER storing its block — see C10 — so
the stored chain is exactly the N appended blocks.) -/
theorem C1_chain_append_invariant (inputs : List Tco.LogInput) :
    (Tco.verify_chain (Tco.applyLogs Tco.initState inputs) 1
          (some inputs.length)).verified = true ∧
      (Tco.verify_chain (Tco.applyLogs Tco.initState inputs) 1
          (some inputs.length)).blocks_checked = inputs.length ∧
      ∀ i (hi : i + 1 < (Tco.applyLogs Tco.initState inputs).audit_trail.length),
        ((Tco.applyLogs Tco.initState inputs).audit_trail.get ⟨i + 1, hi⟩).previous_hash
          = ((Tco.applyLogs Tco.initState inputs).audit_trail.get
              ⟨i, Nat.lt_of_succ_lt hi⟩).block_hash := by
  have hInv := Tco.applyLogs_Inv inputs Tco.initState Tco.initState_Inv
  have hlen : (Tco.applyLogs Tco.initState inputs).audit_trail.length
      = inputs.length := by
    rw [hInv.2]
    simp [Tco.initState]
  have hclean := Tco.verify_chain_clean hInv.1.1
    (Tco.applyLogs Tco.initState inputs).total_entries
    (Tco.applyLogs Tco.initState inputs).last_block_hash
  rw [show (⟨(Tco.applyLogs Tco.initState inputs).audit_trail,
      (Tco.applyLogs Tco.initState inputs).total_entries,
      (Tco.applyLogs Tco.initState inputs).last_block_hash⟩ : Tco.TCOState)
    = Tco.applyLogs Tco.initState inputs from rfl, hlen] at hclean
  refine ⟨by rw [hclean], by rw [hclean], ?_⟩
  intro i hi
  exact Tco.chainOk_consecutive hInv.1.1 i hi

/-- Witness for C1: a concrete two-block chain links block 2 to block 1. -/
theorem C1_chain_append_invariant_witness :
    0 + 1 < (Tco.applyLogs Tco.initState
        [⟨"D1", "m", "a", "t1", PyVal.none, PyVal.none⟩,
         ⟨"D2", "m", "a", "t2", PyVal.none, PyVal.none⟩]).audit_trail.length ∧
      ((Tco.applyLogs Tco.initState
          [⟨"D1", "m", "a", "t1", PyVal.none, PyVal.none⟩,
           ⟨"D2", "m", "a", "t2", PyVal.none, PyVal.none⟩]).audit_trail.get
          ⟨0 + 1, by decide⟩).previous_hash
        = ((Tco.applyLogs Tco.initState
            [⟨"D1", "m", "a", "t1", PyVal.none, PyVal.none⟩,
             ⟨"D2", "m", "a", "t2", PyVal.none, PyVal.none⟩]).audit_trail.get
            ⟨0, by decide⟩).block_hash :=
  ⟨by decide,
    (C1_chain_append_invariant
        [⟨"D1", "m", "a", "t1", PyVal.none, PyVal.none⟩,
         ⟨"D2", "m", "a", "t2", PyVal.none, PyVal.none⟩]).2.2 0 (by decide)⟩

namespace Tco

theorem chainOk_get_bh {rows : List AuditRow} {p : HashVal} {n : ℕ}
    (h : chainOk p n rows) :
    ∀ j (hj : j < rows.length),
      (rows.get ⟨j, hj⟩).block_hash = row_expected_hash (rows.get ⟨j, hj⟩) := by
  induction rows generalizing p n with
  | nil => intro j hj; cases hj
  | cons x rest ih =>
      intro j hj
      simp only [chainOk] at h
      obtain ⟨h1, h2, h3, h4⟩ := h
      cases j with
      | zero => simpa using h3
      | succ j =>
          simp only [List.get_cons_succ]
          exact ih h4 j (by simpa using hj)

theorem verify_chain_verified_eq (st : TCOState) (a : ℕ) (b : Option ℕ) :
    (verify_chain st a b).verified = ((verify_chain st a b).errors).isEmpty := rfl

theorem set_data_hash_errors (inputs : List LogInput) (k a b : ℕ) (dh : HashVal)
    (hk1 : 1 ≤ k) (ha1 : 1 ≤ a) (hak : a ≤ k) (hkb : k ≤ b)
    (hget : k - 1 < (applyLogs initState inputs).audit_trail.length)
    (hdh : dh ≠ ((applyLogs initState inputs).audit_trail.get ⟨k - 1, hget⟩).data_hash) :
    (verify_chain { applyLogs initState inputs with
        audit_trail := set_data_hash (applyLogs initState inputs).audit_trail k dh }
      a (some b)).errors = [invalidErr k] := by
  have hInv := applyLogs_Inv inputs initState initState_Inv
  have hchain := hInv.1.1
  set rk := (applyLogs initState inputs).audit_trail.get ⟨k - 1, hget⟩ with hrkd
  have hrkbn : rk.block_number = k := by
    have h0 := chainOk_get_bn hchain (k - 1) hget
    rw [← hrkd] at h0
    omega
  have hrkbh : rk.block_hash = row_expected_hash rk := chainOk_get_bh hchain (k - 1) hget
  have hbig := verify_tampered_errors hchain
    (fun r => if r.block_number = k then { r with data_hash := dh } else r)
    (fun r hr => if_neg hr)
    (fun r => by by_cases h : r.block_number = k <;> simp [h])
    (fun r => by by_cases h : r.block_number = k <;> simp [h])
    hk1 ha1 hak hkb hget
    (applyLogs initState inputs).total_entries
    (applyLogs initState inputs).last_block_hash
  rw [show ({ applyLogs initState inputs with
      audit_trail := set_data_hash (applyLogs initState inputs).audit_trail k dh }
      : TCOState)
    = ⟨((applyLogs initState inputs).audit_trail).map
        (fun r => if r.block_number = k then { r with data_hash := dh } else r),
      (applyLogs initState inputs).total_entries,
      (applyLogs initState inputs).last_block_hash⟩ from rfl]
  rw [hbig, if_pos hrkbn]
  have hinv : row_expected_hash { rk with data_hash := dh } ≠ rk.block_hash := by
    rw [hrkbh]
    simp only [row_expected_hash, generate_block_hash, ne_eq, HashVal.hblock.injEq,
      not_and]
    intro _ _ _ _ hcontra
    exact absurd hcontra hdh
  have hnob : ¬(a < k ∧ ({ rk with data_hash := dh } : AuditRow).previous_hash
      ≠ rk.previous_hash) := by
    intro hcontra
    exact hcontra.2 rfl
  rw [if_neg hnob, if_pos hinv]
  rfl

theorem set_previous_hash_errors (inputs : List LogInput) (k a b : ℕ) (ph : HashVal)
    (hk1 : 1 ≤ k) (ha1 : 1 ≤ a) (hak : a ≤ k) (hkb : k ≤ b)
    (hget : k - 1 < (applyLogs initState inputs).audit_trail.length)
    (hph : ph ≠ ((applyLogs initState inputs).audit_trail.get ⟨k - 1, hget⟩).previous_hash) :
    (verify_chain { applyLogs initState inputs with
        audit_trail := set_previous_hash (applyLogs initState inputs).audit_trail k ph }
      a (some b)).errors
      = (if a < k then [brokenErr k, invalidErr k] else [invalidErr k]) := by
  have hInv := applyLogs_Inv inputs initState initState_Inv
  have hchain := hInv.1.1
  set rk := (applyLogs initState inputs).audit_trail.get ⟨k - 1, hget⟩ with hrkd
  have hrkbn : rk.block_number = k := by
    have h0 := chainOk_get_bn hchain (k - 1) hget
    rw [← hrkd] at h0
    omega
  have hrkbh : rk.block_hash = row_expected_hash rk := chainOk_get_bh hchain (k - 1) hget
  have hbig := verify_tampered_errors hchain
    (fun r => if r.block_number = k then { r with previous_hash := ph } else r)
    (fun r hr => if_neg hr)
    (fun r => by by_cases h : r.block_number = k <;> simp [h])
    (fun r => by by_cases h : r.block_number = k <;> simp [h])
    hk1 ha1 hak hkb hget
    (applyLogs initState inputs).total_entries
    (applyLogs initState inputs).last_block_hash
  rw [show ({ applyLogs initState inputs with
      audit_trail := set_previous_hash (applyLogs initState inputs).audit_trail k ph }
      : TCOState)
    = ⟨((applyLogs initState inputs).audit_trail).map
        (fun r => if r.block_number = k then { r with previous_hash := ph } else r),
      (applyLogs initState inputs).total_entries,
      (applyLogs initState inputs).last_block_hash⟩ from rfl]
  rw [hbig, if_pos hrkbn]
  have hinv : row_expected_hash { rk with previous_hash := ph } ≠ rk.block_hash := by
    rw [hrkbh]
    simp only [row_expected_hash, generate_block_hash, ne_eq, HashVal.hblock.injEq,
      not_and]
    intro _ _ _ _ _
    intro hcontra
    exact absurd hcontra hph
  rw [if_pos hinv]
  by_cases hlt : a < k
  · rw [if_pos (show a < k ∧ ({ rk with previous_hash := ph } : AuditRow).previous_hash
        ≠ rk.previous_hash from ⟨hlt, hph⟩), if_pos hlt]
    rfl
  · rw [if_neg (show ¬(a < k ∧ ({ rk with previous_hash := ph } : AuditRow).previous_hash
        ≠ rk.previous_hash) from fun hc => hlt hc.1), if_neg hlt]
    rfl

end Tco

/-- Claim C2 as stated is false: `verify_chain` links each block against
the previous block's STORED hash (not the recomputed one,
`tco_module.py` line 283), so mutating block k's `data_hash` leaves
block k+1's link intact — on a concrete 3-block chain with block 2's
`data_hash` overwritten, the only violation is `invalid_hash` at block
2; no `broken_chain` violation at block 3 (or anywhere) is reported. -/
theorem C2_tamper_detection_counterexample :
    (Tco.verify_chain { Tco.applyLogs Tco.initState
          [⟨"D1", "m", "a", "t1", PyVal.none, PyVal.none⟩,
           ⟨"D2", "m", "a", "t2", PyVal.none, PyVal.none⟩,
           ⟨"D3", "m", "a", "t3", PyVal.none, PyVal.none⟩] with
        audit_trail := Tco.set_data_hash (Tco.applyLogs Tco.initState
          [⟨"D1", "m", "a", "t1", PyVal.none, PyVal.none⟩,
           ⟨"D2", "m", "a", "t2", PyVal.none, PyVal.none⟩,
           ⟨"D3", "m", "a", "t3", PyVal.none, PyVal.none⟩]).audit_trail 2
          (Tco.HashVal.hdata "tampered") }
      1 (some 3)).verified = false ∧
    (Tco.verify_chain { Tco.applyLogs Tco.initState
          [⟨"D1", "m", "a", "t1", PyVal.none, PyVal.none⟩,
           ⟨"D2", "m", "a", "t2", PyVal.none, PyVal.none⟩,
           ⟨"D3", "m", "a", "t3", PyVal.none, PyVal.none⟩] with
        audit_trail := Tco.set_data_hash (Tco.applyLogs Tco.initState
          [⟨"D1", "m", "a", "t1", PyVal.none, PyVal.none⟩,
           ⟨"D2", "m", "a", "t2", PyVal.none, PyVal.none⟩,
           ⟨"D3", "m", "a", "t3", PyVal.none, PyVal.none⟩]).audit_trail 2
          (Tco.HashVal.hdata "tampered") }
      1 (some 3)).errors = [Tco.invalidErr 2] ∧
    ∀ e ∈ (Tco.verify_chain { Tco.applyLogs Tco.initState
          [⟨"D1", "m", "a", "t1", PyVal.none, PyVal.none⟩,
           ⟨"D2", "m", "a", "t2", PyVal.none, PyVal.none⟩,
           ⟨"D3", "m", "a", "t3", PyVal.none, PyVal.none⟩] with
        audit_trail := Tco.set_data_hash (Tco.applyLogs Tco.initState
          [⟨"D1", "m", "a", "t1", PyVal.none, PyVal.none⟩,
           ⟨"D2", "m", "a", "t2", PyVal.none, PyVal.none⟩,
           ⟨"D3", "m", "a", "t3", PyVal.none, PyVal.none⟩]).audit_trail 2
          (Tco.HashVal.hdata "tampered") }
      1 (some 3)).errors, e.error ≠ "broken_chain" := by
  have herr := Tco.set_data_hash_errors
    [⟨"D1", "m", "a", "t1", PyVal.none, PyVal.none⟩,
     ⟨"D2", "m", "a", "t2", PyVal.none, PyVal.none⟩,
     ⟨"D3", "m", "a", "t3", PyVal.none, PyVal.none⟩]
    2 1 3 (Tco.HashVal.hdata "tampered")
    (by decide) (by decide) (by decide) (by decide) (by decide) (by decide)
  refine ⟨?_, herr, ?_⟩
  · rw [Tco.verify_chain_verified_eq, herr]
    rfl
  · intro e he
    rw [herr] at he
    simp only [List.mem_singleton] at he
    subst he
    decide

/-- Claim C2 (amended): on an honestly built N-block chain with
1 < k < N, overwriting block k's stored `data_hash` makes every queried
range `[a, b]` containing block k report exactly one violation — an
`invalid_hash` at block k — and `verified = false`; overwriting block
k's stored `previous_hash` makes such a range report an `invalid_hash`
at block k, plus a `broken_chain` at block k itself (not k+1) when the
range also contains block k-1, and `verified = false`.  No
`broken_chain` is ever reported at block k+1, because the loop links
each block against its predecessor's STORED hash, which tampering with
block k does not change. -/
theorem C2_tamper_detection_amended (inputs : List Tco.LogInput)
    (k a b : ℕ) (dh ph : Tco.HashVal)
    (hk1 : 1 < k) (hkN : k < inputs.length)
    (ha1 : 1 ≤ a) (hak : a ≤ k) (hkb : k ≤ b)
    (hget : k - 1 < (Tco.applyLogs Tco.initState inputs).audit_trail.length)
    (hdh : dh ≠ ((Tco.applyLogs Tco.initState inputs).audit_trail.get
        ⟨k - 1, hget⟩).data_hash)
    (hph : ph ≠ ((Tco.applyLogs Tco.initState inputs).audit_trail.get
        ⟨k - 1, hget⟩).previous_hash) :
    ((Tco.verify_chain { Tco.applyLogs Tco.initState inputs with
          audit_trail := Tco.set_data_hash
            (Tco.applyLogs Tco.initState inputs).audit_trail k dh }
        a (some b)).errors = [Tco.invalidErr k] ∧
      (Tco.verify_chain { Tco.applyLogs Tco.initState inputs with
          audit_trail := Tco.set_data_hash
            (Tco.applyLogs Tco.initState inputs).audit_trail k dh }
        a (some b)).verified = false) ∧
    ((Tco.verify_chain { Tco.applyLogs Tco.initState inputs with
          audit_trail := Tco.set_previous_hash
            (Tco.applyLogs Tco.initState inputs).audit_trail k ph }
        a (some b)).errors
        = (if a < k then [Tco.brokenErr k, Tco.invalidErr k]
           else [Tco.invalidErr k]) ∧
      (Tco.verify_chain { Tco.applyLogs Tco.initState inputs with
          audit_trail := Tco.set_previous_hash
            (Tco.applyLogs Tco.initState inputs).audit_trail k ph }
        a (some b)).verified = false) := by
  have herrD := Tco.set_data_hash_errors inputs k a b dh
    (by omega) ha1 hak hkb hget hdh
  have herrP := Tco.set_previous_hash_errors inputs k a b ph
    (by omega) ha1 hak hkb hget hph
  refine ⟨⟨herrD, ?_⟩, herrP, ?_⟩
  · rw [Tco.verify_chain_verified_eq, herrD]
    rfl
  · rw [Tco.verify_chain_verified_eq, herrP]
    by_cases hlt : a < k
    · rw [if_pos hlt]
      rfl
    · rw [if_neg hlt]
      rfl

/-- Witness for C2 (amended): a concrete 3-block chain with block 2
tampered, queried over the full range. -/
theorem C2_tamper_detection_amended_witness :
    (Tco.verify_chain { Tco.applyLogs Tco.initState
          [⟨"D1", "m", "a", "t1", PyVal.none, PyVal.none⟩,
           ⟨"D2", "m", "a", "t2", PyVal.none, PyVal.none⟩,
           ⟨"D3", "m", "a", "t3", PyVal.none, PyVal.none⟩] with
        audit_trail := Tco.set_previous_hash (Tco.applyLogs Tco.initState
          [⟨"D1", "m", "a", "t1", PyVal.none, PyVal.none⟩,
           ⟨"D2", "m", "a", "t2", PyVal.none, PyVal.none⟩,
           ⟨"D3", "m", "a", "t3", PyVal.none, PyVal.none⟩]).audit_trail 2
          (Tco.HashVal.hdata "forged") }
      1 (some 3)).errors = [Tco.brokenErr 2, Tco.invalidErr 2] := by
  have h := (C2_tamper_detection_amended
    [⟨"D1", "m", "a", "t1", PyVal.none, PyVal.none⟩,
     ⟨"D2", "m", "a", "t2", PyVal.none, PyVal.none⟩,
     ⟨"D3", "m", "a", "t3", PyVal.none, PyVal.none⟩]
    2 1 3 (Tco.HashVal.hdata "tampered") (Tco.HashVal.hdata "forged")
    (by decide) (by decide) (by decide) (by decide) (by decide) (by decide)
    (by decide) (by decide)).2.1
  rw [h]
  rfl
